import Mathlib

/-!
Verification of `pkg/utils/config/config.go`.

A shallow embedding of the credential store: the `User` and `Config` types, the in-memory
operations (`IsUserExists`, `GetKey`, `GetUser`, `AddUser`), the file operations
(`SetupConfig`, `WriteConfig`, `ReadConfig`) over a small model of the file system and of
`encoding/json`, and the helpers `Loadusers`, `Loadkey`, `Loaduser`.
-/

namespace Minio

/-! Data model -/

/-- A Go `string` is a sequence of bytes (each element is meant to be below 256). -/
abbrev GoString := List Nat

/-- Go `type User struct { Name, AccessKey, SecretKey string }`. -/
structure User where
  Name : GoString
  AccessKey : GoString
  SecretKey : GoString
deriving DecidableEq

/-- The zero value `User{}`. -/
def User.zero : User := ⟨[], [], []⟩

/-- An allocated `map[string]User`: finitely many entries with pairwise distinct keys. -/
abbrev UserMap := AList (fun _ : GoString => User)

/-- One key/value pair of a map. -/
abbrev Entry := Sigma (fun _ : GoString => User)

/-- A Go value of type `map[string]User`: `none` is the nil map. -/
abbrev GoMap := Option UserMap

/-- The key/value pairs held by a map; the nil map holds none. -/
def GoMap.entries : GoMap → List Entry
  | none => []
  | some m => m.entries

/-- Go `len(m)`. -/
def GoMap.len (m : GoMap) : Nat := m.entries.length

/-- Go `v, ok := m[k]`: reading a nil map is allowed and misses. -/
def GoMap.index (m : GoMap) (k : GoString) : User × Bool :=
  match m with
  | none => (User.zero, false)
  | some a =>
    match a.lookup k with
    | some v => (v, true)
    | none => (User.zero, false)

/-- The order in which a `range` loop visits a map is unspecified: any arrangement of the
entries may be the one visited. -/
def GoMap.RangeOrder (m : GoMap) (order : List Entry) : Prop := order.Perm m.entries

/-- Go `sync.RWMutex`; the model is sequential, so a mutex is free whenever an operation starts
and is released when it returns, and only its allocation matters. -/
structure RWMutex where
deriving DecidableEq

/-- Go `type Config struct`: `configLock` is a pointer, `none` being nil. -/
structure Config where
  configPath : GoString
  configFile : GoString
  configLock : Option RWMutex
  Users : GoMap
deriving DecidableEq

/-- The zero value `Config{}`. -/
def Config.zero : Config := ⟨[], [], none, none⟩

/-! In-memory operations -/

/-- Body of the `range` loop of `IsUserExists` over the visited entries. -/
def IsUserExists.loop (username : GoString) : List Entry → Bool
  | [] => false
  | ⟨_, user⟩ :: rest => if user.Name = username then true else IsUserExists.loop username rest

/-- Go `func (c *Config) IsUserExists(username string) bool`; `order` is the order in which the
`range` loop visits `c.Users`. -/
def IsUserExists (_c : Config) (order : List Entry) (username : GoString) : Bool :=
  IsUserExists.loop username order

/-- Go `func (c *Config) GetKey(accessKey string) User`. -/
def GetKey (c : Config) (accessKey : GoString) : User :=
  let (value, ok) := c.Users.index accessKey
  if !ok then User.zero else value

/-- Body of the `range` loop of `GetUser` over the visited entries. -/
def GetUser.loop (username : GoString) : List Entry → User
  | [] => User.zero
  | ⟨_, user⟩ :: rest => if user.Name = username then user else GetUser.loop username rest

/-- Go `func (c *Config) GetUser(username string) User`; `order` is the order in which the
`range` loop visits `c.Users`. -/
def GetUser (_c : Config) (order : List Entry) (username : GoString) : User :=
  GetUser.loop username order

/-- Go `func (c *Config) AddUser(user User)`. A map of length zero (nil included) is replaced by
a fresh one, so the assignment never meets a nil map. -/
def AddUser (c : Config) (user : User) : Config :=
  let currentUsers : GoMap := if c.Users.len = 0 then some ∅ else c.Users
  match currentUsers with
  | some m => { c with Users := some (m.insert user.AccessKey user) }
  | none => c

/-! UTF-8 (`unicode/utf8`) -/

/-- Go `utf8.RuneError`, U+FFFD. -/
def RuneError : Nat := 0xFFFD

/-- A continuation byte `10xxxxxx`. -/
def isCont (b : Nat) : Bool := decide (0x80 ≤ b) && decide (b ≤ 0xBF)

/-- Least second byte accepted after the first byte `b0` (the table `acceptRanges`). -/
def secondLo (b0 : Nat) : Nat := if b0 = 0xE0 then 0xA0 else if b0 = 0xF0 then 0x90 else 0x80

/-- Greatest second byte accepted after the first byte `b0` (the table `acceptRanges`). -/
def secondHi (b0 : Nat) : Nat := if b0 = 0xED then 0x9F else if b0 = 0xF4 then 0x8F else 0xBF

/-- Go `utf8.DecodeRune`: the first rune of `s` and its width in bytes; an invalid or truncated
sequence gives `(RuneError, 1)` and the empty string `(RuneError, 0)`. -/
def decodeRune : GoString → Nat × Nat
  | [] => (RuneError, 0)
  | b0 :: rest =>
    if b0 < 0x80 then (b0, 1)
    else if 0xC2 ≤ b0 ∧ b0 ≤ 0xDF then
      match rest with
      | b1 :: _ => if isCont b1 then ((b0 % 32) * 64 + b1 % 64, 2) else (RuneError, 1)
      | [] => (RuneError, 1)
    else if 0xE0 ≤ b0 ∧ b0 ≤ 0xEF then
      match rest with
      | b1 :: b2 :: _ =>
        if secondLo b0 ≤ b1 ∧ b1 ≤ secondHi b0 ∧ isCont b2 = true then
          ((b0 % 16) * 4096 + (b1 % 64) * 64 + b2 % 64, 3)
        else (RuneError, 1)
      | _ => (RuneError, 1)
    else if 0xF0 ≤ b0 ∧ b0 ≤ 0xF4 then
      match rest with
      | b1 :: b2 :: b3 :: _ =>
        if secondLo b0 ≤ b1 ∧ b1 ≤ secondHi b0 ∧ isCont b2 = true ∧ isCont b3 = true then
          ((b0 % 8) * 262144 + (b1 % 64) * 4096 + (b2 % 64) * 64 + b3 % 64, 4)
        else (RuneError, 1)
      | _ => (RuneError, 1)
    else (RuneError, 1)

/-- Go `utf8.EncodeRune`: surrogates and values above U+10FFFF are written as U+FFFD. -/
def encodeRune (r : Nat) : GoString :=
  if r ≤ 0x7F then [r]
  else if r ≤ 0x7FF then [0xC0 + r / 64, 0x80 + r % 64]
  else if 0x10FFFF < r ∨ (0xD800 ≤ r ∧ r ≤ 0xDFFF) then [0xEF, 0xBF, 0xBD]
  else if r ≤ 0xFFFF then [0xE0 + r / 4096, 0x80 + (r / 64) % 64, 0x80 + r % 64]
  else [0xF0 + r / 262144, 0x80 + (r / 4096) % 64, 0x80 + (r / 64) % 64, 0x80 + r % 64]

/-- Loop of `utf8.Valid`, with `fuel` bounding the number of runes. -/
def utf8ValidAux : Nat → GoString → Bool
  | 0, s => s.isEmpty
  | _ + 1, [] => true
  | fuel + 1, b :: rest =>
    if b < 0x80 then utf8ValidAux fuel rest
    else
      let (c, size) := decodeRune (b :: rest)
      if c = RuneError ∧ size = 1 then false
      else utf8ValidAux fuel (rest.drop (size - 1))

/-- Go `utf8.Valid`: the bytes are entirely valid UTF-8-encoded runes. -/
def utf8Valid (s : GoString) : Bool := utf8ValidAux s.length s

/-! JSON encoding (`encoding/json`, `Encoder.Encode` of a `map[string]User`) -/

/-- The digit table `"0123456789abcdef"`. -/
def hexDigit (n : Nat) : Nat := if n < 10 then 48 + n else 87 + n

/-- The table `htmlSafeSet`: ASCII bytes written without escaping. -/
def htmlSafe (b : Nat) : Bool :=
  decide (0x20 ≤ b) && decide (b < 0x80) && !(b == 34) && !(b == 38) && !(b == 60) && !(b == 62)
    && !(b == 92)

/-- Escape of an ASCII byte outside `htmlSafeSet`. -/
def escapeByte (b : Nat) : GoString :=
  if b = 92 ∨ b = 34 then [92, b]
  else if b = 8 then [92, 98]
  else if b = 12 then [92, 102]
  else if b = 10 then [92, 110]
  else if b = 13 then [92, 114]
  else if b = 9 then [92, 116]
  else [92, 117, 48, 48, hexDigit (b / 16), hexDigit (b % 16)]

/-- Loop of `appendString`: the text between the quotes. An invalid byte is written as the
six-byte escape of U+FFFD, and U+2028 and U+2029 as their six-byte escapes. -/
def appendStringBody : Nat → GoString → GoString
  | 0, _ => []
  | _ + 1, [] => []
  | fuel + 1, b :: rest =>
    if b < 0x80 then
      (if htmlSafe b then [b] else escapeByte b) ++ appendStringBody fuel rest
    else
      let (c, size) := decodeRune (b :: rest)
      if c = RuneError ∧ size = 1 then
        [92, 117, 102, 102, 102, 100] ++ appendStringBody fuel rest
      else if c = 0x2028 ∨ c = 0x2029 then
        [92, 117, 50, 48, 50, hexDigit (c % 16)] ++ appendStringBody fuel (rest.drop (size - 1))
      else
        (b :: rest).take size ++ appendStringBody fuel (rest.drop (size - 1))

/-- Go `appendString`: a Go string as a JSON string literal. -/
def appendString (s : GoString) : GoString := 34 :: (appendStringBody s.length s ++ [34])

/-- Byte-wise order of Go strings, `a <= b`. -/
def strLE : GoString → GoString → Bool
  | [], _ => true
  | _ :: _, [] => false
  | a :: as, b :: bs => decide (a < b) || (a == b && strLE as bs)

/-- The struct encoder for `User`: the three fields in declaration order. -/
def encodeUser (u : User) : GoString :=
  [123, 34, 78, 97, 109, 101, 34, 58] ++ appendString u.Name
    ++ [44, 34, 65, 99, 99, 101, 115, 115, 75, 101, 121, 34, 58] ++ appendString u.AccessKey
    ++ [44, 34, 83, 101, 99, 114, 101, 116, 75, 101, 121, 34, 58] ++ appendString u.SecretKey
    ++ [125]

/-- One `key:value` member of the object. -/
def encodeEntry (e : Entry) : GoString := appendString e.1 ++ 58 :: encodeUser e.2

/-- The members, separated by commas, and the closing brace. -/
def encodeMembers : List Entry → GoString
  | [] => [125]
  | [e] => encodeEntry e ++ [125]
  | e :: rest => encodeEntry e ++ 44 :: encodeMembers rest

/-- The map encoder: `null` for the nil map, otherwise an object with the keys sorted. -/
def encodeMap : GoMap → GoString
  | none => [110, 117, 108, 108]
  | some m => 123 :: encodeMembers (m.entries.insertionSort (fun a b => strLE a.1 b.1 = true))

/-- What `json.NewEncoder(w).Encode(users)` writes: the value followed by a newline. -/
def Encode (users : GoMap) : GoString := encodeMap users ++ [10]

/-! JSON decoding (`encoding/json`, `Decoder.Decode` into a `map[string]User`) -/

/-- Go `error` values that the operations can return. The three ways in which decoding can
fail (syntax error, unexpected end of input, value of the wrong type) are one value. -/
inductive GoError where
  | notExist
  | notDir
  | isDir
  | exist
  | eof
  | decode
deriving DecidableEq

/-- A parsed JSON value, kept as far as decoding into `map[string]User` looks at it. -/
inductive JSON where
  | null
  | bool
  | num
  | str (s : GoString)
  | arr
  | obj (members : List (GoString × JSON))

/-- JSON white space: space, tab, carriage return, line feed. -/
def isSpace (c : Nat) : Bool := c == 32 || c == 9 || c == 13 || c == 10

/-- Drop leading white space. -/
def skipSpace : GoString → GoString
  | [] => []
  | c :: rest => if isSpace c then skipSpace rest else c :: rest

/-- Value of a hexadecimal digit, either case. -/
def hexVal (c : Nat) : Option Nat :=
  if 48 ≤ c ∧ c ≤ 57 then some (c - 48)
  else if 97 ≤ c ∧ c ≤ 102 then some (c - 87)
  else if 65 ≤ c ∧ c ≤ 70 then some (c - 55)
  else none

/-- Go `getu4`: the value of a six-byte escape, backslash `u` and four hexadecimal digits, at
the head of the input, and the input after it. -/
def getu4 : GoString → Option (Nat × GoString)
  | bs :: u :: a :: b :: c :: d :: rest =>
    if bs = 92 ∧ u = 117 then
      match hexVal a, hexVal b, hexVal c, hexVal d with
      | some x, some y, some z, some w => some (x * 4096 + y * 256 + z * 16 + w, rest)
      | _, _, _, _ => none
    else none
  | _ => none

/-- Go `utf16.DecodeRune`: the rune of a surrogate pair, U+FFFD if the pair is not valid. -/
def decodeSurrogate (r1 r2 : Nat) : Nat :=
  if 0xD800 ≤ r1 ∧ r1 < 0xDC00 ∧ 0xDC00 ≤ r2 ∧ r2 < 0xE000 then
    (r1 - 0xD800) * 1024 + (r2 - 0xDC00) + 0x10000
  else RuneError

/-- The byte a two-byte escape stands for. -/
def simpleEscape (e : Nat) : Option Nat :=
  if e = 34 ∨ e = 92 ∨ e = 47 then some e
  else if e = 98 then some 8
  else if e = 102 then some 12
  else if e = 110 then some 10
  else if e = 114 then some 13
  else if e = 116 then some 9
  else none

/-- A string literal after its opening quote: the checks of the scanner (no control byte, only
known escapes) and `unquote` in one pass. Returns the decoded bytes and the input after the
closing quote. -/
def unquoteBody : Nat → GoString → Option (GoString × GoString)
  | 0, _ => none
  | _ + 1, [] => none
  | fuel + 1, c :: rest =>
    if c = 34 then some ([], rest)
    else if c = 92 then
      match rest with
      | [] => none
      | e :: rest1 =>
        if e = 117 then
          match getu4 (c :: rest) with
          | none => none
          | some (rr, rest2) =>
            if 0xD800 ≤ rr ∧ rr < 0xE000 then
              match getu4 rest2 with
              | some (rr1, rest3) =>
                if decodeSurrogate rr rr1 ≠ RuneError then
                  (unquoteBody fuel rest3).map
                    (fun p => (encodeRune (decodeSurrogate rr rr1) ++ p.1, p.2))
                else (unquoteBody fuel rest2).map (fun p => (encodeRune RuneError ++ p.1, p.2))
              | none => (unquoteBody fuel rest2).map (fun p => (encodeRune RuneError ++ p.1, p.2))
            else (unquoteBody fuel rest2).map (fun p => (encodeRune rr ++ p.1, p.2))
        else
          match simpleEscape e with
          | none => none
          | some b => (unquoteBody fuel rest1).map (fun p => (b :: p.1, p.2))
    else if c < 0x20 then none
    else if c < 0x80 then (unquoteBody fuel rest).map (fun p => (c :: p.1, p.2))
    else
      let (rr, size) := decodeRune (c :: rest)
      (unquoteBody fuel (rest.drop (size - 1))).map (fun p => (encodeRune rr ++ p.1, p.2))

/-- A string literal after its opening quote. -/
def unquote (input : GoString) : Option (GoString × GoString) :=
  unquoteBody (input.length + 1) input

/-- A decimal digit. -/
def isDigit (c : Nat) : Bool := decide (48 ≤ c) && decide (c ≤ 57)

/-- Drop leading digits. -/
def skipDigits : GoString → GoString
  | [] => []
  | c :: rest => if isDigit c then skipDigits rest else c :: rest

/-- Exponent part of a number, if any. -/
def scanExp : GoString → Option GoString
  | [] => some []
  | e :: rest =>
    if e = 101 ∨ e = 69 then
      match rest with
      | [] => none
      | s :: rest1 =>
        if s = 43 ∨ s = 45 then
          match rest1 with
          | [] => none
          | d :: rest2 => if isDigit d then some (skipDigits rest2) else none
        else if isDigit s then some (skipDigits rest1)
        else none
    else some (e :: rest)

/-- Fraction part of a number, if any, then the exponent. -/
def scanFrac : GoString → Option GoString
  | [] => some []
  | p :: rest =>
    if p = 46 then
      match rest with
      | [] => none
      | d :: rest1 => if isDigit d then scanExp (skipDigits rest1) else none
    else scanExp (p :: rest)

/-- Integer part of a number after the optional sign. -/
def scanInt : GoString → Option GoString
  | [] => none
  | c :: rest =>
    if c = 48 then scanFrac rest
    else if isDigit c then scanFrac (skipDigits rest)
    else none

/-- A number: the input after it. -/
def scanNumber : GoString → Option GoString
  | [] => none
  | c :: rest => if c = 45 then scanInt rest else scanInt (c :: rest)

/-- The input after the literal `word`, if the input starts with it. -/
def scanLiteral : GoString → GoString → Option GoString
  | [], input => some input
  | _ :: _, [] => none
  | w :: word, c :: rest => if c = w then scanLiteral word rest else none

mutual

/-- One JSON value at the head of the input (white space already skipped) and the input
after it; `none` when the input does not start with a complete well-formed value. -/
def parseValue : Nat → GoString → Option (JSON × GoString)
  | 0, _ => none
  | _ + 1, [] => none
  | fuel + 1, c :: rest =>
    if c = 123 then
      match skipSpace rest with
      | [] => none
      | d :: rest1 =>
        if d = 125 then some (JSON.obj [], rest1)
        else (parseMembers fuel (d :: rest1)).map (fun p => (JSON.obj p.1, p.2))
    else if c = 91 then
      match skipSpace rest with
      | [] => none
      | d :: rest1 =>
        if d = 93 then some (JSON.arr, rest1)
        else (parseElements fuel (d :: rest1)).map (fun r => (JSON.arr, r))
    else if c = 34 then (unquote rest).map (fun p => (JSON.str p.1, p.2))
    else if c = 45 ∨ isDigit c = true then (scanNumber (c :: rest)).map (fun r => (JSON.num, r))
    else if c = 116 then (scanLiteral [114, 117, 101] rest).map (fun r => (JSON.bool, r))
    else if c = 102 then (scanLiteral [97, 108, 115, 101] rest).map (fun r => (JSON.bool, r))
    else if c = 110 then (scanLiteral [117, 108, 108] rest).map (fun r => (JSON.null, r))
    else none

/-- The members of an object from its first key on, up to the closing brace. -/
def parseMembers : Nat → GoString → Option (List (GoString × JSON) × GoString)
  | 0, _ => none
  | _ + 1, [] => none
  | fuel + 1, c :: rest =>
    if c = 34 then
      match unquote rest with
      | none => none
      | some (key, r1) =>
        match skipSpace r1 with
        | [] => none
        | d :: r2 =>
          if d = 58 then
            match parseValue fuel (skipSpace r2) with
            | none => none
            | some (v, r3) =>
              match skipSpace r3 with
              | [] => none
              | e :: r4 =>
                if e = 44 then
                  (parseMembers fuel (skipSpace r4)).map (fun p => ((key, v) :: p.1, p.2))
                else if e = 125 then some ([(key, v)], r4)
                else none
          else none
    else none

/-- The elements of an array from its first element on, up to the closing bracket. -/
def parseElements : Nat → GoString → Option GoString
  | 0, _ => none
  | fuel + 1, input =>
    match parseValue fuel input with
    | none => none
    | some (_, r1) =>
      match skipSpace r1 with
      | [] => none
      | e :: r2 =>
        if e = 44 then parseElements fuel (skipSpace r2)
        else if e = 93 then some r2
        else none

end

/-- Case-insensitive match of a decoded object key against an ASCII field name, as the
decoder does when no field has exactly the key as its name: letters match in either case,
and so do the two non-ASCII runes that fold to `k` (U+212A) and to `s` (U+017F). -/
def foldMatch : GoString → GoString → Bool
  | [], key => key.isEmpty
  | n :: name, key =>
    let lower := if 65 ≤ n ∧ n ≤ 90 then n + 32 else n
    match key with
    | [] => false
    | b :: bs =>
      if (if 65 ≤ b ∧ b ≤ 90 then b + 32 else b) = lower then foldMatch name bs
      else if lower = 107 then
        match bs with
        | b1 :: b2 :: bs2 => if b = 0xE2 ∧ b1 = 0x84 ∧ b2 = 0xAA then foldMatch name bs2 else false
        | _ => false
      else if lower = 115 then
        match bs with
        | b1 :: bs1 => if b = 0xC5 ∧ b1 = 0xBF then foldMatch name bs1 else false
        | _ => false
      else false

/-- Storing a JSON value into a Go `string`: a string is stored, `null` leaves the field as
it is, anything else is a type error. -/
def storeString (v : JSON) (cur : GoString) : Option GoString :=
  match v with
  | JSON.str s => some s
  | JSON.null => some cur
  | _ => none

/-- Storing the members of an object into a `User`, in order; unknown keys are skipped. -/
def unmarshalFields : List (GoString × JSON) → User → Option User
  | [], u => some u
  | (key, v) :: rest, u =>
    if foldMatch [78, 97, 109, 101] key then
      match storeString v u.Name with
      | none => none
      | some s => unmarshalFields rest { u with Name := s }
    else if foldMatch [65, 99, 99, 101, 115, 115, 75, 101, 121] key then
      match storeString v u.AccessKey with
      | none => none
      | some s => unmarshalFields rest { u with AccessKey := s }
    else if foldMatch [83, 101, 99, 114, 101, 116, 75, 101, 121] key then
      match storeString v u.SecretKey with
      | none => none
      | some s => unmarshalFields rest { u with SecretKey := s }
    else unmarshalFields rest u

/-- Storing a JSON value into a fresh `User`: an object fills the fields, `null` leaves the
zero value, anything else is a type error. -/
def unmarshalUser (v : JSON) : Option User :=
  match v with
  | JSON.obj members => unmarshalFields members User.zero
  | JSON.null => some User.zero
  | _ => none

/-- Storing the members of the top-level object into the map, in order. -/
def unmarshalMembers : List (GoString × JSON) → UserMap → Option UserMap
  | [], m => some m
  | (key, v) :: rest, m =>
    match unmarshalUser v with
    | none => none
    | some u => unmarshalMembers rest (m.insert key u)

/-- Storing a JSON value into the map `users`: an object adds its members, `null` makes the
map nil, anything else is a type error. -/
def unmarshalMap (v : JSON) (users : UserMap) : Option GoMap :=
  match v with
  | JSON.obj members => (unmarshalMembers members users).map some
  | JSON.null => some none
  | _ => none

/-- Result of `json.NewDecoder(r).Decode(&users)` on a reader that yields `input`, for
`users` an allocated map: the value of `users` afterwards when the error is nil. Input
holding nothing but white space gives `io.EOF`; otherwise the first value of the input is
decoded and what follows it is not looked at. -/
def Decode (input : GoString) (users : UserMap) : Except GoError GoMap :=
  match skipSpace input with
  | [] => Except.error GoError.eof
  | c :: rest =>
    match parseValue (2 * rest.length + 4) (c :: rest) with
    | none => Except.error GoError.decode
    | some (v, _) =>
      match unmarshalMap v users with
      | none => Except.error GoError.decode
      | some m => Except.ok m

/-! Paths (`path`) -/

/-- The elements of a path between its slashes. -/
def splitSlash : GoString → List GoString
  | [] => [[]]
  | c :: rest =>
    if c = 47 then [] :: splitSlash rest
    else
      match splitSlash rest with
      | [] => [[c]]
      | h :: t => (c :: h) :: t

/-- Lexical processing of the elements by `path.Clean`: empty and `.` elements are dropped,
`..` removes the element before it, or stays at the head of a path that is not rooted. -/
def cleanElems (rooted : Bool) : List GoString → List GoString → List GoString
  | [], out => out.reverse
  | e :: es, out =>
    if e = [] ∨ e = [46] then cleanElems rooted es out
    else if e = [46, 46] then
      match out with
      | top :: out1 =>
        if top = [46, 46] then cleanElems rooted es (e :: out) else cleanElems rooted es out1
      | [] => if rooted then cleanElems rooted es [] else cleanElems rooted es [e]
    else cleanElems rooted es (e :: out)

/-- Go `path.Clean`. -/
def Clean (path : GoString) : GoString :=
  if path = [] then [46]
  else
    let rooted := path.head? == some 47
    let out := (if rooted then [47] else []) ++
      [47].intercalate (cleanElems rooted (splitSlash path) [])
    if out = [] then [46] else out

/-- Go `path.Join`: empty elements are ignored and the result is cleaned; the result is empty
when there is no non-empty element. -/
def Join (elem : List GoString) : GoString :=
  match elem.filter (fun e => !e.isEmpty) with
  | [] => []
  | es => Clean ([47].intercalate es)

/-! File system (`os`)

Files and directories are named by their cleaned path. Permission bits are not part of the
model: every operation the process attempts is permitted, and a write to an open file
stores all of its bytes. -/

/-- What a path names. -/
inductive Node where
  | dir
  | file (content : GoString)
deriving DecidableEq

/-- The environment of the process: the directory that `helpers.HomeDir()` returns and the
nodes of the file system. -/
structure FS where
  home : GoString
  nodes : AList (fun _ : GoString => Node)
deriving DecidableEq

/-- Go `os.Stat`: the root and the working directory always exist. -/
def Stat (fs : FS) (path : GoString) : Except GoError Node :=
  if path = [47] ∨ path = [46] then Except.ok Node.dir
  else
    match fs.nodes.lookup path with
    | some n => Except.ok n
    | none => Except.error GoError.notExist

/-- Go `os.IsNotExist`. -/
def IsNotExist (err : GoError) : Bool := err == GoError.notExist

/-- The directory that holds `path`: the path up to its last slash, the root for an element
right under it, the working directory for a single element. -/
def parentDir (path : GoString) : GoString :=
  let j := (path.reverse.dropWhile (fun c => c != 47)).length
  if j > 1 then path.take (j - 1) else if j = 1 then [47] else [46]

/-- Go `os.Mkdir`: fails when the path exists or its parent is not a directory. -/
def Mkdir (fs : FS) (path : GoString) : Option GoError × FS :=
  match Stat fs path with
  | Except.ok _ => (some GoError.exist, fs)
  | Except.error _ =>
    match Stat fs (parentDir path) with
    | Except.error err => (some err, fs)
    | Except.ok (Node.file _) => (some GoError.notDir, fs)
    | Except.ok Node.dir => (none, { fs with nodes := fs.nodes.insert path Node.dir })

/-- Go `os.MkdirAll`, with `fuel` bounding the depth of the recursion on the parent. -/
def MkdirAllAux : Nat → FS → GoString → Option GoError × FS
  | 0, fs, _ => (some GoError.notExist, fs)
  | fuel + 1, fs, path =>
    match Stat fs path with
    | Except.ok Node.dir => (none, fs)
    | Except.ok (Node.file _) => (some GoError.notDir, fs)
    | Except.error _ =>
      let i := (path.reverse.dropWhile (fun c => c == 47)).length
      let j := ((path.take i).reverse.dropWhile (fun c => c != 47)).length
      let r := if j > 1 then MkdirAllAux fuel fs (path.take (j - 1)) else (none, fs)
      match r with
      | (some err, fs1) => (some err, fs1)
      | (none, fs1) =>
        match Mkdir fs1 path with
        | (some err, fs2) =>
          match Stat fs2 path with
          | Except.ok Node.dir => (none, fs2)
          | _ => (some err, fs2)
        | (none, fs2) => (none, fs2)

/-- Go `os.MkdirAll`. -/
def MkdirAll (fs : FS) (path : GoString) : Option GoError × FS :=
  MkdirAllAux (path.length + 1) fs path

/-- Go `os.Create`: the file is created empty, or emptied when it exists. -/
def Create (fs : FS) (path : GoString) : Option GoError × FS :=
  match Stat fs path with
  | Except.ok Node.dir => (some GoError.isDir, fs)
  | _ =>
    match Stat fs (parentDir path) with
    | Except.error err => (some err, fs)
    | Except.ok (Node.file _) => (some GoError.notDir, fs)
    | Except.ok Node.dir => (none, { fs with nodes := fs.nodes.insert path (Node.file []) })

/-- The flag of `os.OpenFile`. -/
inductive OpenFlag where
  | O_RDONLY
  | O_WRONLY
deriving DecidableEq

/-- An open `*os.File`, positioned at offset 0. -/
structure File where
  path : GoString
  node : Node
deriving DecidableEq

/-- Go `os.OpenFile(name, flag, 0666)` with neither `O_CREATE` nor `O_TRUNC`: the file must
exist, and a directory cannot be opened for writing. -/
def OpenFile (fs : FS) (name : GoString) (flag : OpenFlag) : Except GoError File :=
  match Stat fs name with
  | Except.error err => Except.error err
  | Except.ok Node.dir =>
    if flag = OpenFlag.O_WRONLY then Except.error GoError.isDir
    else Except.ok ⟨name, Node.dir⟩
  | Except.ok (Node.file content) => Except.ok ⟨name, Node.file content⟩

/-- Go `file.Write(data)` on a file opened for writing at offset 0: the bytes replace the
start of the content, and what the content had beyond them stays. -/
def File.Write (file : File) (fs : FS) (data : GoString) : FS :=
  match file.node with
  | Node.dir => fs
  | Node.file content =>
    { fs with nodes := fs.nodes.insert file.path (Node.file (data ++ content.drop data.length)) }

/-- Everything a reader on the open file yields; reading a directory is an error. -/
def File.ReadAll (file : File) : Except GoError GoString :=
  match file.node with
  | Node.dir => Except.error GoError.isDir
  | Node.file content => Except.ok content

/-! File operations of the store -/

/-- A Go run-time panic. -/
inductive GoPanic where
  | nilDereference
deriving DecidableEq

/-- The element `.minio`. -/
def dotMinio : GoString := [46, 109, 105, 110, 105, 111]

/-- The element `config.json`. -/
def configJson : GoString := [99, 111, 110, 102, 105, 103, 46, 106, 115, 111, 110]

/-- Go `func (c *Config) SetupConfig() error`: the error, the store and the file system
afterwards. -/
def SetupConfig (c : Config) (fs : FS) : Option GoError × Config × FS :=
  let confPath := Join [fs.home, dotMinio]
  match MkdirAll fs confPath with
  | (some err, fs1) => (some err, c, fs1)
  | (none, fs1) =>
    let c1 := { c with configPath := confPath }
    let c2 := { c1 with configFile := Join [c1.configPath, configJson] }
    match Stat fs1 c2.configFile with
    | Except.error err =>
      if IsNotExist err then
        match Create fs1 c2.configFile with
        | (some err1, fs2) => (some err1, c2, fs2)
        | (none, fs2) => (none, { c2 with configLock := some {} }, fs2)
      else (none, { c2 with configLock := some {} }, fs1)
    | Except.ok _ => (none, { c2 with configLock := some {} }, fs1)

/-- Go `func (c *Config) GetConfigPath() string`. -/
def GetConfigPath (c : Config) : GoString := c.configPath

/-- Go `func (c *Config) WriteConfig() error`: locking through a nil `configLock` panics; the
file is opened write-only, without truncation, and the encoded map is written at its
start. The result of `Encode` is not looked at. -/
def WriteConfig (c : Config) (fs : FS) : Except GoPanic (Option GoError × FS) :=
  match c.configLock with
  | none => Except.error GoPanic.nilDereference
  | some _ =>
    match OpenFile fs c.configFile OpenFlag.O_WRONLY with
    | Except.error err => Except.ok (some err, fs)
    | Except.ok file => Except.ok (none, file.Write fs (Encode c.Users))

/-- Go `func (c *Config) ReadConfig() error`: locking through a nil `configLock` panics;
`io.EOF` from the decoder is success with the map left as it is, a nil error installs the
decoded map, any other error is returned. -/
def ReadConfig (c : Config) (fs : FS) : Except GoPanic (Option GoError × Config) :=
  match c.configLock with
  | none => Except.error GoPanic.nilDereference
  | some _ =>
    match OpenFile fs c.configFile OpenFlag.O_RDONLY with
    | Except.error err => Except.ok (some err, c)
    | Except.ok file =>
      let users : UserMap := ∅
      let r := match file.ReadAll with
        | Except.error err => Except.error err
        | Except.ok input => Decode input users
      match r with
      | Except.error GoError.eof => Except.ok (none, c)
      | Except.ok users1 => Except.ok (none, { c with Users := users1 })
      | Except.error err => Except.ok (some err, c)

/-! Helpers -/

/-- The store of a helper after `c.SetupConfig()` and `c.ReadConfig()`, both results
discarded, and the file system afterwards. -/
def loadStore (fs : FS) : Except GoPanic (Config × FS) :=
  let c := Config.zero
  match SetupConfig c fs with
  | (_, c1, fs1) =>
    match ReadConfig c1 fs1 with
    | Except.error p => Except.error p
    | Except.ok (_, c2) => Except.ok (c2, fs1)

/-- Go `func Loadusers() map[string]User`: the returned map and the file system afterwards. -/
def Loadusers (fs : FS) : Except GoPanic (GoMap × FS) :=
  match loadStore fs with
  | Except.error p => Except.error p
  | Except.ok (c, fs1) => Except.ok (c.Users, fs1)

/-- Go `func Loadkey(accessKeyId string) User`. -/
def Loadkey (fs : FS) (accessKeyId : GoString) : Except GoPanic (User × FS) :=
  match loadStore fs with
  | Except.error p => Except.error p
  | Except.ok (c, fs1) => Except.ok (GetKey c accessKeyId, fs1)

/-- Go `func Loaduser(username string) User`; `order` maps the loaded store to the order in
which the `range` loop of `GetUser` visits its map. -/
def Loaduser (fs : FS) (order : Config → List Entry) (username : GoString) :
    Except GoPanic (User × FS) :=
  match loadStore fs with
  | Except.error p => Except.error p
  | Except.ok (c, fs1) => Except.ok (GetUser c (order c) username, fs1)

/-! Values used in the statements and proofs below -/

/-- The file system with home directory `/h` and nothing else. -/
def fsFresh : FS := ⟨[47, 104], ∅⟩

/-- A store that was set up, with config file `f` and no users. -/
def cPlain : Config := ⟨[], [102], some {}, none⟩

/-- A store that was never set up (its lock is nil) whose config file is named `f`. -/
def cUnset : Config := ⟨[], [102], none, none⟩

/-- The text `{not valid json`. -/
def notValidJson : GoString :=
  [123, 110, 111, 116, 32, 118, 97, 108, 105, 100, 32, 106, 115, 111, 110]

/-- A store that was set up, with config file `f`, holding user `b` under key `A`. -/
def cShort : Config := AddUser cPlain ⟨[98], [65], [83]⟩

/-- The encoding of a map holding user `bob` under key `AK1` with secret `SK1`. -/
def priorLong : GoString :=
  Encode (AddUser cPlain ⟨[98, 111, 98], [65, 75, 49], [83, 75, 49]⟩).Users

/-- A file system in which `.minio` under the home directory `/h` is a regular file. -/
def fsBlocked : FS :=
  ⟨[47, 104],
    (∅ : AList (fun _ : GoString => Node)).insert [47, 104, 47, 46, 109, 105, 110, 105, 111]
      (Node.file [])⟩

/-- The JSON value that the encoding of a user parses to. -/
def userJSON (u : User) : JSON :=
  JSON.obj [([78, 97, 109, 101], JSON.str u.Name),
    ([65, 99, 99, 101, 115, 115, 75, 101, 121], JSON.str u.AccessKey),
    ([83, 101, 99, 114, 101, 116, 75, 101, 121], JSON.str u.SecretKey)]

/-- The key and the three fields of an entry are valid UTF-8. -/
def ValidEntry (e : Entry) : Prop :=
  utf8Valid e.1 = true ∧ utf8Valid e.2.Name = true ∧ utf8Valid e.2.AccessKey = true ∧
    utf8Valid e.2.SecretKey = true

/-- The member that the encoding of an entry parses to. -/
def entryJSON (e : Entry) : GoString × JSON := (e.1, userJSON e.2)

/-- The store after `SetupConfig` on the fresh home directory `/h`. -/
def cSet : Config := (SetupConfig Config.zero fsFresh).2.1

/-- The file system after `SetupConfig` on the fresh home directory `/h`. -/
def fsSet : FS := (SetupConfig Config.zero fsFresh).2.2

/-- User `bob` with access key `AK1` and secret key `SK1`. -/
def uBob : User := ⟨[98, 111, 98], [65, 75, 49], [83, 75, 49]⟩

/-- A user whose name is the single byte `0xFF`, which is not valid UTF-8. -/
def uBad : User := ⟨[0xFF], [65], [83]⟩

/-- The file system `fsSet` with the encoding of `users` in the config file. -/
def fsSaved (users : GoMap) : FS :=
  ⟨fsSet.home, fsSet.nodes.insert cSet.configFile (Node.file (Encode users))⟩

/-! In-memory operations: lemmas -/

theorem GoMap.len_eq_zero_iff (m : GoMap) : m.len = 0 ↔ m.entries = [] := by
  simp [GoMap.len]

theorem GetUser.loop_of_forall_ne (username : GoString) (order : List Entry)
    (h : ∀ e ∈ order, e.2.Name ≠ username) : GetUser.loop username order = User.zero := by
  induction order with
  | nil => rfl
  | cons e rest ih =>
    obtain ⟨k, u⟩ := e
    have h1 : u.Name ≠ username := h ⟨k, u⟩ (List.mem_cons_self _ _)
    simp only [GetUser.loop, if_neg h1]
    exact ih (fun e he => h e (List.mem_cons_of_mem _ he))

theorem GetUser.loop_of_exists (username : GoString) (order : List Entry)
    (h : ∃ e ∈ order, e.2.Name = username) :
    ∃ e ∈ order, GetUser.loop username order = e.2 ∧ e.2.Name = username := by
  induction order with
  | nil => simp at h
  | cons e rest ih =>
    obtain ⟨k, u⟩ := e
    by_cases h1 : u.Name = username
    · exact ⟨⟨k, u⟩, List.mem_cons_self _ _, by simp [GetUser.loop, h1], h1⟩
    · have h2 : ∃ e ∈ rest, e.2.Name = username := by
        obtain ⟨e, he, hn⟩ := h
        rcases List.mem_cons.mp he with rfl | he
        · exact absurd hn h1
        · exact ⟨e, he, hn⟩
      obtain ⟨e, he, hv, hn⟩ := ih h2
      exact ⟨e, List.mem_cons_of_mem _ he, by simp [GetUser.loop, h1, hv], hn⟩

theorem IsUserExists.loop_iff (username : GoString) (order : List Entry) :
    IsUserExists.loop username order = true ↔ ∃ e ∈ order, e.2.Name = username := by
  induction order with
  | nil => simp [IsUserExists.loop]
  | cons e rest ih =>
    obtain ⟨k, u⟩ := e
    by_cases h1 : u.Name = username
    · simp [IsUserExists.loop, h1]
    · simp [IsUserExists.loop, h1, ih]

theorem AddUser_users (c : Config) (user : User) :
    (AddUser c user).Users =
      some ((if c.Users.len = 0 then (∅ : UserMap) else c.Users.getD ∅).insert
        user.AccessKey user) := by
  unfold AddUser
  by_cases h : c.Users.len = 0
  · simp [h]
  · cases hu : c.Users with
    | none => exact absurd (by simp [hu, GoMap.len, GoMap.entries]) h
    | some m =>
      rw [hu] at h
      simp [h]

theorem GetKey_AddUser_self (c : Config) (user : User) :
    GetKey (AddUser c user) user.AccessKey = user := by
  simp [GetKey, AddUser_users, GoMap.index]

theorem GetKey_AddUser_ne (c : Config) (user : User) (k : GoString) (h : k ≠ user.AccessKey) :
    GetKey (AddUser c user) k = GetKey c k := by
  simp only [GetKey, AddUser_users, GoMap.index, AList.lookup_insert_ne h]
  by_cases h0 : c.Users.len = 0
  · have he := (GoMap.len_eq_zero_iff _).mp h0
    cases hu : c.Users with
    | none => simp [h0, hu]
    | some m =>
      have : m.lookup k = none := by
        rw [AList.lookup_eq_none, AList.mem_keys, AList.keys]
        simp [hu, GoMap.entries] at he
        simp [he, List.keys]
      rw [hu] at h0
      simp [h0, this]
  · cases hu : c.Users with
    | none => simp
    | some m =>
      rw [hu] at h0
      simp [h0]

/-! In-memory operations: the claims -/

/-- C2: `GetKey` returns the user stored at the key when the key is present and the zero
`User` when it is absent, the nil map included; being a total function it never fails. -/
theorem GetKey_point_lookup (c : Config) (accessKey : GoString) :
    (∀ m u, c.Users = some m → m.lookup accessKey = some u → GetKey c accessKey = u) ∧
    (∀ m, c.Users = some m → accessKey ∉ m.keys →
      GetKey c accessKey = { Name := [], AccessKey := [], SecretKey := [] }) ∧
    (c.Users = none → GetKey c accessKey = { Name := [], AccessKey := [], SecretKey := [] }) := by
  refine ⟨?_, ?_, ?_⟩
  · intro m u hm hu
    simp [GetKey, GoMap.index, hm, hu]
  · intro m hm hk
    have : m.lookup accessKey = none := by
      rw [AList.lookup_eq_none, AList.mem_keys]; exact hk
    simp [GetKey, GoMap.index, hm, this, User.zero]
  · intro hm
    simp [GetKey, GoMap.index, hm, User.zero]

/-- Witness of C2: a store holding `bob` under key `A`, asked for key `A`. -/
theorem GetKey_point_lookup_witness :
    GetKey (AddUser Config.zero ⟨[98, 111, 98], [65], [1]⟩) [65] = ⟨[98, 111, 98], [65], [1]⟩ :=
  (GetKey_point_lookup (AddUser Config.zero ⟨[98, 111, 98], [65], [1]⟩) [65]).1
    ((∅ : UserMap).insert [65] ⟨[98, 111, 98], [65], [1]⟩) ⟨[98, 111, 98], [65], [1]⟩ rfl rfl

theorem AddUser_entries (c : Config) (user : User) :
    (AddUser c user).Users.entries =
      ⟨user.AccessKey, user⟩ :: List.kerase user.AccessKey c.Users.entries := by
  rw [AddUser_users]
  by_cases h0 : c.Users.len = 0
  · have he := (GoMap.len_eq_zero_iff _).mp h0
    rw [he]
    simp [GoMap.entries, h0]
  · cases hu : c.Users with
    | none => exact absurd (by simp [hu, GoMap.len, GoMap.entries]) h0
    | some m =>
      rw [hu] at h0
      simp [GoMap.entries, h0]

theorem GoMap.nodupKeys_entries (m : GoMap) : m.entries.NodupKeys := by
  cases m with
  | none => exact List.nodupKeys_nil
  | some a => exact a.nodupKeys

/-- C3: adding two users with the same access key and different secret keys leaves exactly
one entry for that key, which is the second user, and as many entries as after the first
addition alone. -/
theorem AddUser_overwrite (c : Config) (u1 u2 : User) (hk : u1.AccessKey = u2.AccessKey)
    (hs : u1.SecretKey ≠ u2.SecretKey) :
    (AddUser (AddUser c u1) u2).Users.entries.filter (fun e => decide (e.1 = u1.AccessKey))
        = [⟨u2.AccessKey, u2⟩] ∧
      GetKey (AddUser (AddUser c u1) u2) u1.AccessKey = u2 ∧
      (GetKey (AddUser (AddUser c u1) u2) u1.AccessKey).SecretKey ≠ u1.SecretKey ∧
      (AddUser (AddUser c u1) u2).Users.len = (AddUser c u1).Users.len := by
  have hget : GetKey (AddUser (AddUser c u1) u2) u1.AccessKey = u2 := by
    rw [hk]; exact GetKey_AddUser_self _ _
  have hent : (AddUser (AddUser c u1) u2).Users.entries =
      ⟨u2.AccessKey, u2⟩ :: List.kerase u2.AccessKey c.Users.entries := by
    rw [AddUser_entries, AddUser_entries, hk]
    rw [List.kerase_cons_eq (l := List.kerase u2.AccessKey c.Users.entries)
      (s := (⟨u2.AccessKey, u1⟩ : Entry)) rfl]
  refine ⟨?_, hget, ?_, ?_⟩
  · rw [hent, hk]
    have hnot : ∀ e ∈ List.kerase u2.AccessKey c.Users.entries, e.1 ≠ u2.AccessKey := by
      intro e he heq
      have hmem : e.1 ∈ (List.kerase u2.AccessKey c.Users.entries).keys :=
        List.mem_keys_of_mem he
      rw [heq] at hmem
      exact List.not_mem_keys_kerase _ (GoMap.nodupKeys_entries c.Users) hmem
    rw [List.filter_cons_of_pos (by simp)]
    congr 1
    exact List.filter_eq_nil_iff.mpr (fun e he => by simpa using hnot e he)
  · rw [hget]; exact fun h => hs h.symm
  · simp only [GoMap.len, hent, AddUser_entries, hk, List.length_cons]

/-- Witness of C3: user `b` is added under key `A` with secret `1`, then with secret `2`. -/
theorem AddUser_overwrite_witness :
    ([65] : GoString) = [65] ∧ ([1] : GoString) ≠ [2] ∧
      GetKey (AddUser (AddUser Config.zero ⟨[98], [65], [1]⟩) ⟨[98], [65], [2]⟩) [65]
        = ⟨[98], [65], [2]⟩ :=
  ⟨rfl, by decide,
    (AddUser_overwrite Config.zero ⟨[98], [65], [1]⟩ ⟨[98], [65], [2]⟩ rfl (by decide)).2.1⟩

/-- C4: `GetUser` returns the zero `User` when no entry has the name, and an entry with
the name when there is one, whatever the order in which the map is visited; being a total
function it never fails. -/
theorem GetUser_contract (c : Config) (order : List Entry) (username : GoString)
    (horder : c.Users.RangeOrder order) :
    ((∀ e ∈ c.Users.entries, e.2.Name ≠ username) →
        GetUser c order username = { Name := [], AccessKey := [], SecretKey := [] }) ∧
      ((∃ e ∈ c.Users.entries, e.2.Name = username) →
        ∃ e ∈ c.Users.entries, GetUser c order username = e.2 ∧ e.2.Name = username) := by
  constructor
  · intro h
    exact GetUser.loop_of_forall_ne username order (fun e he => h e (horder.subset he))
  · rintro ⟨e, he, hn⟩
    obtain ⟨e1, he1, hv, hn1⟩ :=
      GetUser.loop_of_exists username order ⟨e, horder.symm.subset he, hn⟩
    exact ⟨e1, horder.subset he1, hv, hn1⟩

/-- Witness of C4: a store holding `bob` under key `A`, asked for `bob`. -/
theorem GetUser_contract_witness :
    GoMap.RangeOrder (AddUser Config.zero ⟨[98, 111, 98], [65], [1]⟩).Users
        [⟨[65], ⟨[98, 111, 98], [65], [1]⟩⟩] ∧
      ∃ e ∈ (AddUser Config.zero ⟨[98, 111, 98], [65], [1]⟩).Users.entries,
        GetUser (AddUser Config.zero ⟨[98, 111, 98], [65], [1]⟩)
          [⟨[65], ⟨[98, 111, 98], [65], [1]⟩⟩] [98, 111, 98] = e.2 ∧ e.2.Name = [98, 111, 98] :=
  ⟨List.Perm.refl _,
    (GetUser_contract (AddUser Config.zero ⟨[98, 111, 98], [65], [1]⟩)
      [⟨[65], ⟨[98, 111, 98], [65], [1]⟩⟩] [98, 111, 98] (List.Perm.refl _)).2
      ⟨⟨[65], ⟨[98, 111, 98], [65], [1]⟩⟩, List.mem_singleton.mpr rfl, rfl⟩⟩

/-- C8: `IsUserExists` is true exactly when some entry has the name, whatever the order
in which the map is visited; it is false on a nil or empty map; and two stores whose
entries carry the same names give the same answer, whatever their keys, access keys and
secret keys. -/
theorem IsUserExists_iff (c : Config) (order : List Entry) (username : GoString)
    (horder : c.Users.RangeOrder order) :
    (IsUserExists c order username = true ↔ ∃ e ∈ c.Users.entries, e.2.Name = username) ∧
      (c.Users.len = 0 → IsUserExists c order username = false) ∧
      (∀ (c1 : Config) (order1 : List Entry), c1.Users.RangeOrder order1 →
        (∀ n, n ∈ c1.Users.entries.map (fun e => e.2.Name) ↔
          n ∈ c.Users.entries.map (fun e => e.2.Name)) →
        IsUserExists c1 order1 username = IsUserExists c order username) := by
  have key : ∀ (c : Config) (order : List Entry), c.Users.RangeOrder order →
      (IsUserExists c order username = true ↔
        username ∈ c.Users.entries.map (fun e => e.2.Name)) := by
    intro c order horder
    rw [IsUserExists, IsUserExists.loop_iff, List.mem_map]
    constructor
    · rintro ⟨e, he, hn⟩; exact ⟨e, horder.subset he, hn⟩
    · rintro ⟨e, he, hn⟩; exact ⟨e, horder.symm.subset he, hn⟩
  refine ⟨?_, ?_, ?_⟩
  · rw [key c order horder, List.mem_map]
  · intro h0
    have he := (GoMap.len_eq_zero_iff _).mp h0
    have := key c order horder
    rw [he] at this
    simpa using this
  · intro c1 order1 h1 hnames
    have a := key c order horder
    have b := key c1 order1 h1
    rw [hnames username] at b
    rw [Bool.eq_iff_iff, a, b]

/-- Witness of C8: a store holding `bob` under key `A`, asked for `bob`. -/
theorem IsUserExists_iff_witness :
    GoMap.RangeOrder (AddUser Config.zero ⟨[98, 111, 98], [65], [1]⟩).Users
        [⟨[65], ⟨[98, 111, 98], [65], [1]⟩⟩] ∧
      IsUserExists (AddUser Config.zero ⟨[98, 111, 98], [65], [1]⟩)
        [⟨[65], ⟨[98, 111, 98], [65], [1]⟩⟩] [98, 111, 98] = true :=
  ⟨List.Perm.refl _,
    (IsUserExists_iff (AddUser Config.zero ⟨[98, 111, 98], [65], [1]⟩)
      [⟨[65], ⟨[98, 111, 98], [65], [1]⟩⟩] [98, 111, 98] (List.Perm.refl _)).1.mpr
      ⟨⟨[65], ⟨[98, 111, 98], [65], [1]⟩⟩, List.mem_singleton.mpr rfl, rfl⟩⟩

/-! File system: lemmas -/

theorem Stat_insert_self (fs : FS) (path : GoString) (n : Node) :
    ∃ n1, Stat { fs with nodes := fs.nodes.insert path n } path = Except.ok n1 := by
  unfold Stat
  by_cases h : path = [47] ∨ path = [46]
  · exact ⟨Node.dir, by simp [h]⟩
  · exact ⟨n, by simp [h]⟩

theorem Stat_insert_dir (fs : FS) (path : GoString) :
    Stat { fs with nodes := fs.nodes.insert path Node.dir } path = Except.ok Node.dir := by
  unfold Stat
  by_cases h : path = [47] ∨ path = [46]
  · simp [h]
  · simp [h]

theorem Stat_insert_ne (fs : FS) (p q : GoString) (n : Node) (h : q ≠ p) :
    Stat { fs with nodes := fs.nodes.insert p n } q = Stat fs q := by
  unfold Stat
  simp [AList.lookup_insert_ne h]

theorem Mkdir_ok (fs fs1 : FS) (path : GoString) (h : Mkdir fs path = (none, fs1)) :
    Stat fs1 path = Except.ok Node.dir ∧ fs1.home = fs.home := by
  unfold Mkdir at h
  split at h
  · simp at h
  · split at h
    · simp at h
    · simp at h
    · simp only [Prod.mk.injEq, true_and] at h
      subst h
      exact ⟨Stat_insert_dir fs path, rfl⟩

theorem Mkdir_home (fs : FS) (path : GoString) : (Mkdir fs path).2.home = fs.home := by
  unfold Mkdir
  split
  · rfl
  · split <;> rfl

theorem MkdirAllAux_ok (fuel : Nat) : ∀ (fs fs1 : FS) (path : GoString),
    MkdirAllAux fuel fs path = (none, fs1) →
      Stat fs1 path = Except.ok Node.dir ∧ fs1.home = fs.home := by
  induction fuel with
  | zero => intro fs fs1 path h; simp [MkdirAllAux] at h
  | succ fuel ih =>
    intro fs fs1 path h
    rw [MkdirAllAux] at h
    split at h
    · next hs =>
      simp only [Prod.mk.injEq, true_and] at h
      subst h
      exact ⟨hs, rfl⟩
    · simp at h
    · simp only at h
      split at h
      · simp at h
      · next fsA hr =>
        have hA : fsA.home = fs.home := by
          split at hr
          · exact (ih _ _ _ hr).2
          · simp only [Prod.mk.injEq, true_and] at hr
            rw [← hr]
        split at h
        · next err fs2 hm =>
          have h2 : fs2.home = fsA.home := by
            have := Mkdir_home fsA path
            rw [hm] at this
            exact this
          split at h
          · next hs =>
            simp only [Prod.mk.injEq, true_and] at h
            subst h
            exact ⟨hs, h2.trans hA⟩
          · simp at h
        · next fs2 hm =>
          simp only [Prod.mk.injEq, true_and] at h
          subst h
          have := Mkdir_ok _ _ _ hm
          exact ⟨this.1, this.2.trans hA⟩

theorem MkdirAll_of_dir (fs : FS) (path : GoString) (h : Stat fs path = Except.ok Node.dir) :
    MkdirAll fs path = (none, fs) := by
  unfold MkdirAll
  rw [MkdirAllAux]
  simp [h]

theorem Create_ok (fs fs1 : FS) (path : GoString) (h : Create fs path = (none, fs1)) :
    fs1 = { fs with nodes := fs.nodes.insert path (Node.file []) } := by
  unfold Create at h
  split at h
  · simp at h
  · split at h
    · simp at h
    · simp at h
    · simp only [Prod.mk.injEq, true_and] at h
      exact h.symm

/-! `SetupConfig` -/

/-- C10: when a first `SetupConfig` succeeds, a second one right after it succeeds too,
leaves the whole file system (the directory and the content of the config file included)
and the store as the first call left them, and the config file is the config path joined
with `config.json`, the config path being the home directory joined with `.minio`. -/
theorem SetupConfig_idempotent (c c1 : Config) (fs fs1 : FS)
    (h : SetupConfig c fs = (none, c1, fs1)) :
    SetupConfig c1 fs1 = (none, c1, fs1) ∧
      c1.configFile = Join [c1.configPath, configJson] ∧
      c1.configPath = Join [fs.home, dotMinio] := by
  unfold SetupConfig at h
  simp only at h
  split at h
  · simp at h
  · next fsA hmk =>
    obtain ⟨hdir, hhome⟩ := MkdirAllAux_ok _ _ _ _ hmk
    split at h
    · next err hst =>
      split at h
      · split at h
        · simp at h
        · next fs2 hcr =>
          simp only [Prod.mk.injEq, true_and] at h
          obtain ⟨hc, hf⟩ := h
          subst hc hf
          have hfs2 := Create_ok _ _ _ hcr
          have hne : Join [fs.home, dotMinio] ≠
              Join [Join [fs.home, dotMinio], configJson] := by
            intro heq
            rw [← heq, hdir] at hst
            simp at hst
          have hdir2 : Stat fs2 (Join [fs.home, dotMinio]) = Except.ok Node.dir := by
            rw [hfs2, Stat_insert_ne _ _ _ _ hne]; exact hdir
          have hhome2 : fs2.home = fs.home := by rw [hfs2]; exact hhome
          obtain ⟨n1, hn1⟩ := Stat_insert_self fsA
            (Join [Join [fs.home, dotMinio], configJson]) (Node.file [])
          rw [← hfs2] at hn1
          refine ⟨?_, rfl, rfl⟩
          unfold SetupConfig
          simp only [hhome2, MkdirAll_of_dir _ _ hdir2, hn1]
      · simp only [Prod.mk.injEq, true_and] at h
        obtain ⟨hc, hf⟩ := h
        subst hc hf
        refine ⟨?_, rfl, rfl⟩
        unfold SetupConfig
        simp only [hhome, MkdirAll_of_dir _ _ hdir, hst]
        simp_all
    · next n hst =>
      simp only [Prod.mk.injEq, true_and] at h
      obtain ⟨hc, hf⟩ := h
      subst hc hf
      refine ⟨?_, rfl, rfl⟩
      unfold SetupConfig
      simp only [hhome, MkdirAll_of_dir _ _ hdir, hst]

/-- Witness of C10: the first `SetupConfig` on a fresh home directory `/h` succeeds. -/
theorem SetupConfig_idempotent_witness :
    SetupConfig Config.zero fsFresh =
        (none, (SetupConfig Config.zero fsFresh).2.1, (SetupConfig Config.zero fsFresh).2.2) ∧
      (SetupConfig Config.zero fsFresh).2.1.configFile =
        [47, 104, 47, 46, 109, 105, 110, 105, 111, 47,
          99, 111, 110, 102, 105, 103, 46, 106, 115, 111, 110] ∧
      SetupConfig (SetupConfig Config.zero fsFresh).2.1 (SetupConfig Config.zero fsFresh).2.2 =
        (none, (SetupConfig Config.zero fsFresh).2.1, (SetupConfig Config.zero fsFresh).2.2) :=
  ⟨rfl, rfl, (SetupConfig_idempotent Config.zero _ fsFresh _ rfl).1⟩

/-! `ReadConfig` -/

theorem GetKey_of_len_zero (c : Config) (h : c.Users.len = 0) (k : GoString) :
    GetKey c k = User.zero := by
  cases hu : c.Users with
  | none => simp [GetKey, GoMap.index, hu]
  | some m =>
    have he : m.entries = [] := by simpa [GoMap.len, GoMap.entries, hu] using h
    have : m.lookup k = none := by
      rw [AList.lookup_eq_none, AList.mem_keys, AList.keys, he]
      simp [List.keys]
    simp [GetKey, GoMap.index, hu, this]

theorem OpenFile_of_file (fs : FS) (name : GoString) (flag : OpenFlag) (content : GoString)
    (h : Stat fs name = Except.ok (Node.file content)) :
    OpenFile fs name flag = Except.ok ⟨name, Node.file content⟩ := by
  simp [OpenFile, h]

/-- C5, amended: on a store that was set up (its lock is allocated), `ReadConfig` over a
zero-byte config file returns no error and leaves the store, its map included, as it was;
on a store whose map is empty the map stays empty and every `GetKey` returns the zero
`User`. -/
theorem ReadConfig_empty_file (c : Config) (fs : FS) (lock : RWMutex)
    (hlock : c.configLock = some lock)
    (hfile : Stat fs c.configFile = Except.ok (Node.file [])) :
    ReadConfig c fs = Except.ok (none, c) ∧
      (c.Users.len = 0 →
        ∀ k, GetKey c k = { Name := [], AccessKey := [], SecretKey := [] }) := by
  refine ⟨?_, fun h0 k => GetKey_of_len_zero c h0 k⟩
  simp [ReadConfig, hlock, OpenFile_of_file _ _ _ _ hfile, File.ReadAll, Decode, skipSpace]

/-- Witness of C5: the config file `f` exists and is empty. -/
theorem ReadConfig_empty_file_witness :
    cPlain.configLock = some {} ∧
      Stat ⟨[], (∅ : AList (fun _ : GoString => Node)).insert [102] (Node.file [])⟩
        cPlain.configFile = Except.ok (Node.file []) ∧
      ReadConfig cPlain ⟨[], (∅ : AList (fun _ : GoString => Node)).insert [102]
          (Node.file [])⟩ = Except.ok (none, cPlain) :=
  ⟨rfl, rfl, (ReadConfig_empty_file cPlain
    ⟨[], (∅ : AList (fun _ : GoString => Node)).insert [102] (Node.file [])⟩ {} rfl rfl).1⟩

/-- C5 as stated fails: on a store that was never set up the lock is nil, and `ReadConfig`
over a zero-byte config file panics at `c.configLock.RLock()` instead of returning. -/
theorem ReadConfig_empty_file_unset_store_panics :
    cUnset.configLock = none ∧
      Stat ⟨[], (∅ : AList (fun _ : GoString => Node)).insert [102] (Node.file [])⟩
        cUnset.configFile = Except.ok (Node.file []) ∧
      ReadConfig cUnset ⟨[], (∅ : AList (fun _ : GoString => Node)).insert [102]
        (Node.file [])⟩ = Except.error GoPanic.nilDereference ∧
      ReadConfig cUnset ⟨[], (∅ : AList (fun _ : GoString => Node)).insert [102]
        (Node.file [])⟩ ≠ Except.ok (none, cUnset) :=
  ⟨rfl, rfl, rfl, by simp [ReadConfig, cUnset]⟩

/-- On a store that was set up, a config file holding white space only is read like an
empty one: `ReadConfig` returns no error and leaves the store as it was. -/
theorem ReadConfig_blank_file (c : Config) (fs : FS) (content : GoString) (lock : RWMutex)
    (hlock : c.configLock = some lock)
    (hfile : Stat fs c.configFile = Except.ok (Node.file content))
    (hblank : skipSpace content = []) :
    ReadConfig c fs = Except.ok (none, c) := by
  simp [ReadConfig, hlock, OpenFile_of_file _ _ _ _ hfile, File.ReadAll, Decode, hblank]

/-- C6 as stated fails: a config file holding one space is not empty and holds no JSON
value at all, yet `ReadConfig` returns no error. -/
theorem ReadConfig_malformed_as_stated_fails :
    ¬ ∀ (c : Config) (fs : FS) (content : GoString), c.configLock ≠ none →
        Stat fs c.configFile = Except.ok (Node.file content) → content ≠ [] →
        (∀ fuel v rest, parseValue fuel (skipSpace content) = some (v, rest) →
          unmarshalMap v ∅ = none) →
        ∃ err, ReadConfig c fs = Except.ok (some err, c) := by
  intro h
  obtain ⟨err, herr⟩ := h cPlain
    ⟨[], (∅ : AList (fun _ : GoString => Node)).insert [102] (Node.file [32])⟩ [32]
    (by decide) rfl (by decide)
    (by intro fuel v rest hp; cases fuel <;> simp [skipSpace, isSpace, parseValue] at hp)
  have : ReadConfig cPlain
      ⟨[], (∅ : AList (fun _ : GoString => Node)).insert [102] (Node.file [32])⟩ =
      Except.ok (none, cPlain) := rfl
  rw [this] at herr
  simp at herr

theorem Decode_of_no_value (content : GoString) (users : UserMap)
    (hnb : skipSpace content ≠ [])
    (hbad : ∀ fuel v rest, parseValue fuel (skipSpace content) = some (v, rest) →
      unmarshalMap v users = none) :
    Decode content users = Except.error GoError.decode := by
  unfold Decode
  cases hs : skipSpace content with
  | nil => exact absurd hs hnb
  | cons c rest =>
    simp only
    cases hp : parseValue (2 * rest.length + 4) (c :: rest) with
    | none => rfl
    | some p =>
      obtain ⟨v, r⟩ := p
      have := hbad (2 * rest.length + 4) v r (by rw [hs]; exact hp)
      simp [this]

/-- C6, amended: on a store that was set up, when the config file holds a byte other
than white space and what follows its leading white space is not a well-formed JSON value
that decodes as a map from strings to `User`, `ReadConfig` returns a decode error and
leaves the store, its map included, as it was. -/
theorem ReadConfig_malformed (c : Config) (fs : FS) (content : GoString) (lock : RWMutex)
    (hlock : c.configLock = some lock)
    (hfile : Stat fs c.configFile = Except.ok (Node.file content))
    (hnb : skipSpace content ≠ [])
    (hbad : ∀ fuel v rest, parseValue fuel (skipSpace content) = some (v, rest) →
      unmarshalMap v ∅ = none) :
    ReadConfig c fs = Except.ok (some GoError.decode, c) := by
  simp [ReadConfig, hlock, OpenFile_of_file _ _ _ _ hfile, File.ReadAll,
    Decode_of_no_value content ∅ hnb hbad]

/-- Witness of C6, amended: the config file `f` holds `{not valid json`. -/
theorem ReadConfig_malformed_witness :
    cPlain.configLock = some {} ∧
      Stat ⟨[], (∅ : AList (fun _ : GoString => Node)).insert [102] (Node.file notValidJson)⟩
        cPlain.configFile = Except.ok (Node.file notValidJson) ∧
      skipSpace notValidJson ≠ [] ∧
      ReadConfig cPlain ⟨[], (∅ : AList (fun _ : GoString => Node)).insert [102]
        (Node.file notValidJson)⟩ = Except.ok (some GoError.decode, cPlain) :=
  ⟨rfl, rfl, by decide,
    ReadConfig_malformed cPlain _ notValidJson {} rfl rfl (by decide)
      (by
        intro fuel v rest hp
        rcases fuel with _ | _ | fuel <;>
          simp [notValidJson, skipSpace, isSpace, parseValue, parseMembers] at hp)⟩

/-! `WriteConfig` -/

theorem WriteConfig_content (c : Config) (fs : FS) (content : GoString) (lock : RWMutex)
    (hlock : c.configLock = some lock)
    (hfile : Stat fs c.configFile = Except.ok (Node.file content)) :
    WriteConfig c fs = Except.ok (none, ⟨fs.home, fs.nodes.insert c.configFile
        (Node.file (Encode c.Users ++ content.drop (Encode c.Users).length))⟩) ∧
      Stat ⟨fs.home, fs.nodes.insert c.configFile
        (Node.file (Encode c.Users ++ content.drop (Encode c.Users).length))⟩ c.configFile =
        Except.ok (Node.file (Encode c.Users ++ content.drop (Encode c.Users).length)) := by
  constructor
  · simp [WriteConfig, hlock, OpenFile_of_file _ _ _ _ hfile, File.Write]
  · unfold Stat at hfile ⊢
    by_cases h : c.configFile = [47] ∨ c.configFile = [46]
    · simp [h] at hfile
    · simp [h]

/-- C7 at a failing input: the config file holds the 59 bytes of an earlier, longer
encoding; `WriteConfig` of a store whose encoding has 51 bytes returns no error and leaves
the last 8 bytes of the earlier content after the new encoding. -/
theorem WriteConfig_keeps_stale_tail :
    WriteConfig cShort ⟨[], (∅ : AList (fun _ : GoString => Node)).insert [102]
        (Node.file priorLong)⟩ =
      Except.ok (none, ⟨[], (∅ : AList (fun _ : GoString => Node)).insert [102]
        (Node.file (Encode cShort.Users ++ [34, 83, 75, 49, 34, 125, 125, 10]))⟩) ∧
      (Encode cShort.Users).length = 51 ∧ priorLong.length = 59 ∧
      Encode cShort.Users ++ [34, 83, 75, 49, 34, 125, 125, 10] ≠ Encode cShort.Users :=
  ⟨rfl, by decide, by decide, by simp⟩

/-! Helpers -/

/-- C9 at a failing input: when `.minio` is a regular file, `SetupConfig` fails before it
allocates the lock, and each helper panics in `ReadConfig` instead of returning. -/
theorem helpers_panic_when_setup_fails :
    (SetupConfig Config.zero fsBlocked).1 = some GoError.notDir ∧
      (SetupConfig Config.zero fsBlocked).2.1.configLock = none ∧
      Loadusers fsBlocked = Except.error GoPanic.nilDereference ∧
      Loadkey fsBlocked [65] = Except.error GoPanic.nilDereference ∧
      Loaduser fsBlocked (fun c => c.Users.entries) [98] =
        Except.error GoPanic.nilDereference :=
  ⟨rfl, rfl, rfl, rfl, rfl⟩

/-- When `SetupConfig` succeeds the helpers return: `ReadConfig` finds the lock allocated,
and when it returns an error the store still has no users, so `Loadkey` returns the zero
`User` and `Loadusers` the nil map. -/
theorem helpers_return_after_setup (fs fs1 : FS) (c1 : Config) (accessKeyId : GoString)
    (h : SetupConfig Config.zero fs = (none, c1, fs1)) :
    ∃ err c2, ReadConfig c1 fs1 = Except.ok (err, c2) ∧
      Loadusers fs = Except.ok (c2.Users, fs1) ∧
      Loadkey fs accessKeyId = Except.ok (GetKey c2 accessKeyId, fs1) ∧
      (err ≠ none → c2.Users = none ∧ GetKey c2 accessKeyId = User.zero) := by
  have hlock : c1.configLock = some {} := by
    unfold SetupConfig at h
    simp only at h
    split at h
    · simp at h
    · split at h
      · split at h
        · split at h
          · simp at h
          · simp only [Prod.mk.injEq, true_and] at h
            rw [← h.1]
        · simp only [Prod.mk.injEq, true_and] at h
          rw [← h.1]
      · simp only [Prod.mk.injEq, true_and] at h
        rw [← h.1]
  have husers : c1.Users = none := by
    unfold SetupConfig at h
    simp only at h
    split at h
    · simp at h
    · split at h
      · split at h
        · split at h
          · simp at h
          · simp only [Prod.mk.injEq, true_and] at h
            rw [← h.1]; rfl
        · simp only [Prod.mk.injEq, true_and] at h
          rw [← h.1]; rfl
      · simp only [Prod.mk.injEq, true_and] at h
        rw [← h.1]; rfl
  have hread : ∃ err c2, ReadConfig c1 fs1 = Except.ok (err, c2) ∧
      (err ≠ none → c2 = c1) := by
    unfold ReadConfig
    rw [hlock]
    simp only
    split
    · exact ⟨_, _, rfl, fun _ => rfl⟩
    · split
      · exact ⟨_, _, rfl, fun _ => rfl⟩
      · exact ⟨_, _, rfl, fun hne => absurd rfl hne⟩
      · exact ⟨_, _, rfl, fun _ => rfl⟩
  obtain ⟨err, c2, hr, hc2⟩ := hread
  refine ⟨err, c2, hr, ?_, ?_, ?_⟩
  · simp [Loadusers, loadStore, h, hr]
  · simp [Loadkey, loadStore, h, hr]
  · intro hne
    rw [hc2 hne]
    exact ⟨husers, by simp [GetKey, GoMap.index, husers]⟩

/-- Witness of `helpers_return_after_setup`: a fresh home directory. -/
theorem helpers_return_after_setup_witness :
    Loadkey fsFresh [65] = Except.ok (User.zero, (SetupConfig Config.zero fsFresh).2.2) :=
  match helpers_return_after_setup fsFresh _ _ [65] rfl with
  | ⟨_, _, _, _, _, _⟩ => rfl

/-! UTF-8: lemmas -/

/-- A decoded rune that is not an error is re-encoded as the bytes it was decoded from. -/
theorem encodeRune_decodeRune (s : GoString) (c size : Nat) (h : decodeRune s = (c, size))
    (hne : s ≠ []) (hv : ¬ (c = RuneError ∧ size = 1)) : encodeRune c = s.take size := by
  unfold decodeRune at h
  unfold RuneError at h hv
  split at h
  · exact absurd rfl hne
  · next b0 rest =>
    split at h
    · next hb =>
      simp only [Prod.mk.injEq] at h
      obtain ⟨rfl, rfl⟩ := h
      simp [encodeRune]
      omega
    · split at h
      · next hb =>
        split at h
        · next b1 rest1 =>
          split at h
          · next hc =>
            simp only [Prod.mk.injEq] at h
            obtain ⟨rfl, rfl⟩ := h
            simp only [isCont, Bool.and_eq_true, decide_eq_true_eq] at hc
            have h1 : ¬ ((b0 % 32) * 64 + b1 % 64 ≤ 0x7F) := by omega
            have h2 : (b0 % 32) * 64 + b1 % 64 ≤ 0x7FF := by omega
            simp only [encodeRune, h1, h2, if_true, if_false, List.take_succ_cons, List.take_zero,
              List.cons.injEq, and_true]
            constructor <;> omega
          · simp only [Prod.mk.injEq] at h
            exact absurd ⟨h.1.symm, h.2.symm⟩ hv
        · simp only [Prod.mk.injEq] at h
          exact absurd ⟨h.1.symm, h.2.symm⟩ hv
      · split at h
        · next hb =>
          split at h
          · next b1 b2 rest2 =>
            split at h
            · next hc =>
              simp only [Prod.mk.injEq] at h
              obtain ⟨rfl, rfl⟩ := h
              simp only [isCont, Bool.and_eq_true, decide_eq_true_eq] at hc
              obtain ⟨hc1, hc2, hc3⟩ := hc
              have hlo : b0 = 0xE0 → 0xA0 ≤ b1 := by intro h0; simpa [secondLo, h0] using hc1
              have hlo2 : 0x80 ≤ b1 := by
                unfold secondLo at hc1; split at hc1 <;> [skip; split at hc1] <;> omega
              have hhi : b0 = 0xED → b1 ≤ 0x9F := by intro h0; simpa [secondHi, h0] using hc2
              have hhi2 : b1 ≤ 0xBF := by
                unfold secondHi at hc2; split at hc2 <;> [skip; split at hc2] <;> omega
              have h1 : ¬ ((b0 % 16) * 4096 + (b1 % 64) * 64 + b2 % 64 ≤ 0x7F) := by omega
              have h2 : ¬ ((b0 % 16) * 4096 + (b1 % 64) * 64 + b2 % 64 ≤ 0x7FF) := by omega
              have h3 : ¬ (0x10FFFF < (b0 % 16) * 4096 + (b1 % 64) * 64 + b2 % 64 ∨
                  (0xD800 ≤ (b0 % 16) * 4096 + (b1 % 64) * 64 + b2 % 64 ∧
                    (b0 % 16) * 4096 + (b1 % 64) * 64 + b2 % 64 ≤ 0xDFFF)) := by omega
              have h4 : (b0 % 16) * 4096 + (b1 % 64) * 64 + b2 % 64 ≤ 0xFFFF := by omega
              simp only [encodeRune, h1, h2, h3, h4, if_true, if_false, List.take_succ_cons,
                List.take_zero, List.cons.injEq, and_true]
              refine ⟨?_, ?_, ?_⟩ <;> omega
            · simp only [Prod.mk.injEq] at h
              exact absurd ⟨h.1.symm, h.2.symm⟩ hv
          · simp only [Prod.mk.injEq] at h
            exact absurd ⟨h.1.symm, h.2.symm⟩ hv
        · split at h
          · next hb =>
            split at h
            · next b1 b2 b3 rest3 =>
              split at h
              · next hc =>
                simp only [Prod.mk.injEq] at h
                obtain ⟨rfl, rfl⟩ := h
                simp only [isCont, Bool.and_eq_true, decide_eq_true_eq] at hc
                obtain ⟨hc1, hc2, hc3, hc4⟩ := hc
                have hlo : b0 = 0xF0 → 0x90 ≤ b1 := by intro h0; simpa [secondLo, h0] using hc1
                have hlo2 : 0x80 ≤ b1 := by
                  unfold secondLo at hc1; split at hc1 <;> [skip; split at hc1] <;> omega
                have hhi : b0 = 0xF4 → b1 ≤ 0x8F := by intro h0; simpa [secondHi, h0] using hc2
                have hhi2 : b1 ≤ 0xBF := by
                  unfold secondHi at hc2; split at hc2 <;> [skip; split at hc2] <;> omega
                have h1 : ¬ ((b0 % 8) * 262144 + (b1 % 64) * 4096 + (b2 % 64) * 64 + b3 % 64
                    ≤ 0x7F) := by omega
                have h2 : ¬ ((b0 % 8) * 262144 + (b1 % 64) * 4096 + (b2 % 64) * 64 + b3 % 64
                    ≤ 0x7FF) := by omega
                have h3 : ¬ (0x10FFFF < (b0 % 8) * 262144 + (b1 % 64) * 4096 + (b2 % 64) * 64
                      + b3 % 64 ∨
                    (0xD800 ≤ (b0 % 8) * 262144 + (b1 % 64) * 4096 + (b2 % 64) * 64 + b3 % 64 ∧
                      (b0 % 8) * 262144 + (b1 % 64) * 4096 + (b2 % 64) * 64 + b3 % 64
                        ≤ 0xDFFF)) := by omega
                have h4 : ¬ ((b0 % 8) * 262144 + (b1 % 64) * 4096 + (b2 % 64) * 64 + b3 % 64
                    ≤ 0xFFFF) := by omega
                simp only [encodeRune, h1, h2, h3, h4, if_true, if_false, List.take_succ_cons,
                  List.take_zero, List.cons.injEq, and_true]
                refine ⟨?_, ?_, ?_, ?_⟩ <;> omega
              · simp only [Prod.mk.injEq] at h
                exact absurd ⟨h.1.symm, h.2.symm⟩ hv
            · simp only [Prod.mk.injEq] at h
              exact absurd ⟨h.1.symm, h.2.symm⟩ hv
          · simp only [Prod.mk.injEq] at h
            exact absurd ⟨h.1.symm, h.2.symm⟩ hv

/-- A decoded rune that is not an error has at least two bytes when its first byte is not
ASCII, lies within the string, and is decoded from its own bytes alone. -/
theorem decodeRune_valid (b : Nat) (t : GoString) (c size : Nat)
    (h : decodeRune (b :: t) = (c, size)) (hb : ¬ b < 0x80)
    (hv : ¬ (c = RuneError ∧ size = 1)) :
    ∃ k, size = k + 2 ∧ k + 1 ≤ t.length ∧
      ∀ X, decodeRune (b :: (t.take (k + 1) ++ X)) = (c, size) := by
  unfold decodeRune at h
  simp only [hb, if_false] at h
  split at h
  · next hb2 =>
    split at h
    · next b1 rest1 =>
      split at h
      · next hc =>
        simp only [Prod.mk.injEq] at h
        obtain ⟨rfl, rfl⟩ := h
        refine ⟨0, rfl, by simp, fun X => ?_⟩
        simp [decodeRune, hb, hb2, hc]
      · simp only [Prod.mk.injEq] at h
        exact absurd ⟨h.1.symm, h.2.symm⟩ hv
    · simp only [Prod.mk.injEq] at h
      exact absurd ⟨h.1.symm, h.2.symm⟩ hv
  · next hb2 =>
    split at h
    · next hb3 =>
      split at h
      · next b1 b2 rest2 =>
        split at h
        · next hc =>
          simp only [Prod.mk.injEq] at h
          obtain ⟨rfl, rfl⟩ := h
          refine ⟨1, rfl, by simp, fun X => ?_⟩
          simp [decodeRune, hb, hb2, hb3, hc]
        · simp only [Prod.mk.injEq] at h
          exact absurd ⟨h.1.symm, h.2.symm⟩ hv
      · simp only [Prod.mk.injEq] at h
        exact absurd ⟨h.1.symm, h.2.symm⟩ hv
    · next hb3 =>
      split at h
      · next hb4 =>
        split at h
        · next b1 b2 b3 rest3 =>
          split at h
          · next hc =>
            simp only [Prod.mk.injEq] at h
            obtain ⟨rfl, rfl⟩ := h
            refine ⟨2, rfl, by simp, fun X => ?_⟩
            simp [decodeRune, hb, hb2, hb3, hb4, hc]
          · simp only [Prod.mk.injEq] at h
            exact absurd ⟨h.1.symm, h.2.symm⟩ hv
        · simp only [Prod.mk.injEq] at h
          exact absurd ⟨h.1.symm, h.2.symm⟩ hv
      · simp only [Prod.mk.injEq] at h
        exact absurd ⟨h.1.symm, h.2.symm⟩ hv

theorem hexVal_hexDigit (n : Nat) (h : n < 16) : hexVal (hexDigit n) = some n := by
  unfold hexDigit hexVal
  by_cases h1 : n < 10
  · have : 48 ≤ 48 + n ∧ 48 + n ≤ 57 := by omega
    simp [h1, this]
  · have h2 : ¬ (48 ≤ 87 + n ∧ 87 + n ≤ 57) := by omega
    have h3 : 97 ≤ 87 + n ∧ 87 + n ≤ 102 := by omega
    rw [if_neg h1, if_neg h2, if_pos h3]
    congr 1
    omega

theorem getu4_ascii (b : Nat) (hb : b < 0x80) (rest : GoString) :
    getu4 (92 :: 117 :: 48 :: 48 :: hexDigit (b / 16) :: hexDigit (b % 16) :: rest) =
      some (b, rest) := by
  have h1 := hexVal_hexDigit (b / 16) (by omega)
  have h2 := hexVal_hexDigit (b % 16) (by omega)
  have h0 : hexVal 48 = some 0 := by decide
  simp only [getu4, h0, h1, h2, true_and, if_true, Option.some.injEq, Prod.mk.injEq,
    and_true]
  omega

/-! String literals: decoding what the encoder wrote -/

theorem unquoteBody_escapeByte (b : Nat) (hb : b < 0x80)
    (fuel : Nat) (X : GoString) :
    unquoteBody (fuel + 1) (escapeByte b ++ X) =
      (unquoteBody fuel X).map (fun p => (b :: p.1, p.2)) := by
  unfold escapeByte
  by_cases h1 : b = 92 ∨ b = 34
  · rcases h1 with rfl | rfl <;> simp [unquoteBody, simpleEscape]
  · have h92 : b ≠ 92 := fun h => h1 (Or.inl h)
    have h34 : b ≠ 34 := fun h => h1 (Or.inr h)
    rw [if_neg h1]
    by_cases h2 : b = 8
    · subst h2; simp [unquoteBody, simpleEscape]
    by_cases h3 : b = 12
    · subst h3; simp [unquoteBody, simpleEscape]
    by_cases h4 : b = 10
    · subst h4; simp [unquoteBody, simpleEscape]
    by_cases h5 : b = 13
    · subst h5; simp [unquoteBody, simpleEscape]
    by_cases h6 : b = 9
    · subst h6; simp [unquoteBody, simpleEscape]
    rw [if_neg h2, if_neg h3, if_neg h4, if_neg h5, if_neg h6]
    have hg := getu4_ascii b hb X
    have hsur : ¬ (0xD800 ≤ b ∧ b < 0xE000) := by omega
    have henc : encodeRune b = [b] := by
      have : b ≤ 0x7F := by omega
      simp [encodeRune, this]
    simp only [List.cons_append, List.nil_append, unquoteBody]
    simp [hg, hsur, henc]

theorem length_escapeByte_pos (b : Nat) : 0 < (escapeByte b).length := by
  unfold escapeByte
  repeat' split
  all_goals simp

theorem unquoteBody_quote (fuel : Nat) (rest : GoString) :
    unquoteBody (fuel + 1) (34 :: rest) = some ([], rest) := by
  simp [unquoteBody]

theorem unquoteBody_plain (fuel c : Nat) (rest : GoString) (h34 : c ≠ 34) (h92 : c ≠ 92)
    (h20 : ¬ c < 0x20) (h80 : c < 0x80) :
    unquoteBody (fuel + 1) (c :: rest) =
      (unquoteBody fuel rest).map (fun p => (c :: p.1, p.2)) := by
  simp [unquoteBody, h34, h92, h20, h80]

theorem unquoteBody_multi (fuel c : Nat) (rest : GoString) (h80 : ¬ c < 0x80) :
    unquoteBody (fuel + 1) (c :: rest) =
      (unquoteBody fuel (rest.drop ((decodeRune (c :: rest)).2 - 1))).map
        (fun p => (encodeRune (decodeRune (c :: rest)).1 ++ p.1, p.2)) := by
  have h34 : c ≠ 34 := by omega
  have h92 : c ≠ 92 := by omega
  have h20 : ¬ c < 0x20 := by omega
  simp [unquoteBody, h34, h92, h20, h80]

theorem unquoteBody_u (fuel r : Nat) (rest X : GoString)
    (hg : getu4 (92 :: 117 :: rest) = some (r, X)) (hsur : ¬ (0xD800 ≤ r ∧ r < 0xE000)) :
    unquoteBody (fuel + 1) (92 :: 117 :: rest) =
      (unquoteBody fuel X).map (fun p => (encodeRune r ++ p.1, p.2)) := by
  simp [unquoteBody, hg, hsur]

/-- Decoding the body of a string literal that the encoder wrote for valid UTF-8 gives the
string back, and stops right after the closing quote. -/
theorem unquoteBody_appendStringBody (f : Nat) : ∀ (s : GoString), s.length ≤ f →
    utf8ValidAux f s = true → ∀ (fuel : Nat) (rest : GoString),
      (appendStringBody f s).length < fuel →
      unquoteBody fuel (appendStringBody f s ++ 34 :: rest) = some (s, rest) := by
  induction f with
  | zero =>
    intro s hlen _ fuel rest hfuel
    have hs : s = [] := List.length_eq_zero.mp (Nat.le_zero.mp hlen)
    subst hs
    obtain ⟨k, rfl⟩ : ∃ k, fuel = k + 1 := ⟨fuel - 1, by omega⟩
    exact unquoteBody_quote k rest
  | succ f ih =>
    intro s hlen hvalid fuel rest hfuel
    obtain ⟨j, rfl⟩ : ∃ j, fuel = j + 1 := ⟨fuel - 1, by omega⟩
    cases s with
    | nil => exact unquoteBody_quote j rest
    | cons b t =>
      have hlt : t.length ≤ f := by simpa using hlen
      by_cases hb : b < 0x80
      · have hvt : utf8ValidAux f t = true := by simpa [utf8ValidAux, hb] using hvalid
        by_cases hsafe : htmlSafe b = true
        · have hbody : appendStringBody (f + 1) (b :: t) = b :: appendStringBody f t := by
            simp [appendStringBody, hb, hsafe]
          rw [hbody] at hfuel ⊢
          have hj : (appendStringBody f t).length < j := by
            rw [List.length_cons] at hfuel; omega
          simp only [htmlSafe, Bool.and_eq_true, decide_eq_true_eq, Bool.not_eq_true',
            beq_eq_false_iff_ne, ne_eq] at hsafe
          obtain ⟨⟨⟨⟨⟨⟨h20, _⟩, h34⟩, _⟩, _⟩, _⟩, h92⟩ := hsafe
          rw [List.cons_append, unquoteBody_plain j b _ h34 h92 (by omega) hb,
            ih t hlt hvt j rest hj]
          rfl
        · have hsafe' : htmlSafe b = false := by simpa using hsafe
          have hbody : appendStringBody (f + 1) (b :: t) =
              escapeByte b ++ appendStringBody f t := by
            simp [appendStringBody, hb, hsafe']
          rw [hbody] at hfuel ⊢
          have hpos := length_escapeByte_pos b
          have hj : (appendStringBody f t).length < j := by
            rw [List.length_append] at hfuel; omega
          rw [List.append_assoc, unquoteBody_escapeByte b hb, ih t hlt hvt j rest hj]
          rfl
      · cases hd : decodeRune (b :: t) with
        | mk c size =>
          have hv : ¬ (c = RuneError ∧ size = 1) := by
            intro hbad
            simp [utf8ValidAux, hb, hd, hbad] at hvalid
          obtain ⟨k, hsize, hkt, hloc⟩ := decodeRune_valid b t c size hd hb hv
          have henc := encodeRune_decodeRune (b :: t) c size hd (by simp) hv
          have hvt : utf8ValidAux f (t.drop (k + 1)) = true := by
            simpa [utf8ValidAux, hb, hd, hv, hsize] using hvalid
          have hdl : (t.drop (k + 1)).length ≤ f := by simp; omega
          have htake : (b :: t).take size = b :: t.take (k + 1) := by
            rw [hsize]; rfl
          have hsplit : (b :: t.take (k + 1)) ++ t.drop (k + 1) = b :: t := by
            simp
          rw [htake] at henc
          by_cases hls : c = 0x2028 ∨ c = 0x2029
          · have hbody : appendStringBody (f + 1) (b :: t) =
                92 :: 117 :: 50 :: 48 :: 50 :: hexDigit (c % 16) ::
                  appendStringBody f (t.drop (k + 1)) := by
              simp [appendStringBody, hb, hd, hv, hls, hsize]
            rw [hbody] at hfuel ⊢
            have hj : (appendStringBody f (t.drop (k + 1))).length < j := by
              simp only [List.length_cons] at hfuel; omega
            have hg : getu4 (92 :: 117 :: 50 :: 48 :: 50 :: hexDigit (c % 16) ::
                (appendStringBody f (t.drop (k + 1)) ++ 34 :: rest)) =
                some (c, appendStringBody f (t.drop (k + 1)) ++ 34 :: rest) := by
              rcases hls with rfl | rfl <;> simp [getu4, hexVal, hexDigit]
            have hsur : ¬ (0xD800 ≤ c ∧ c < 0xE000) := by
              rcases hls with rfl | rfl <;> omega
            simp only [List.cons_append]
            rw [unquoteBody_u j c _ _ hg hsur, ih _ hdl hvt j rest hj, henc]
            simp only [Option.map_some', hsplit]
          · have hbody : appendStringBody (f + 1) (b :: t) =
                b :: (t.take (k + 1) ++ appendStringBody f (t.drop (k + 1))) := by
              simp [appendStringBody, hb, hd, hv, hls, hsize]
            rw [hbody] at hfuel ⊢
            have hj : (appendStringBody f (t.drop (k + 1))).length < j := by
              simp only [List.length_cons, List.length_append] at hfuel; omega
            have hl := hloc (appendStringBody f (t.drop (k + 1)) ++ 34 :: rest)
            have hdrop : List.drop (size - 1)
                (t.take (k + 1) ++ (appendStringBody f (t.drop (k + 1)) ++ 34 :: rest)) =
                appendStringBody f (t.drop (k + 1)) ++ 34 :: rest := by
              have : size - 1 = (t.take (k + 1)).length := by
                rw [List.length_take]; omega
              rw [this, List.drop_left]
            rw [List.cons_append, List.append_assoc, unquoteBody_multi j b _ hb, hl]
            simp only [hdrop]
            rw [ih _ hdl hvt j rest hj, henc]
            simp only [Option.map_some', hsplit]

/-! Parsing what the encoder wrote -/

theorem appendString_append (s rest : GoString) :
    appendString s ++ rest = 34 :: (appendStringBody s.length s ++ 34 :: rest) := by
  simp [appendString]

theorem unquote_appendStringBody (s rest : GoString) (hv : utf8Valid s = true) :
    unquote (appendStringBody s.length s ++ 34 :: rest) = some (s, rest) := by
  unfold unquote
  exact unquoteBody_appendStringBody s.length s (Nat.le_refl _) hv _ rest
    (by simp only [List.length_append, List.length_cons]; omega)

theorem skipSpace_cons (c : Nat) (rest : GoString) (h : isSpace c = false) :
    skipSpace (c :: rest) = c :: rest := by
  simp [skipSpace, h]

theorem skipSpace_appendString (s rest : GoString) :
    skipSpace (appendString s ++ rest) = appendString s ++ rest := by
  rw [appendString_append]
  exact skipSpace_cons _ _ (by decide)

theorem parseValue_string (fuel : Nat) (s rest : GoString) (hv : utf8Valid s = true) :
    parseValue (fuel + 1) (appendString s ++ rest) = some (JSON.str s, rest) := by
  rw [appendString_append, parseValue]
  simp [unquote_appendStringBody s rest hv]

/-- One member whose value is followed by a comma. -/
theorem parseMembers_comma (fuel : Nat) (key V R : GoString) (v : JSON)
    (hk : utf8Valid key = true) (hV : skipSpace V = V)
    (hp : parseValue fuel V = some (v, 44 :: R)) (hR : skipSpace R = R) :
    parseMembers (fuel + 1) (appendString key ++ 58 :: V) =
      (parseMembers fuel R).map (fun p => ((key, v) :: p.1, p.2)) := by
  rw [appendString_append, parseMembers]
  simp [unquote_appendStringBody key _ hk, skipSpace_cons 58 V (by decide), hV, hp,
    skipSpace_cons 44 R (by decide), hR]

/-- The last member, whose value is followed by the closing brace. -/
theorem parseMembers_last (fuel : Nat) (key V R : GoString) (v : JSON)
    (hk : utf8Valid key = true) (hV : skipSpace V = V)
    (hp : parseValue fuel V = some (v, 125 :: R)) :
    parseMembers (fuel + 1) (appendString key ++ 58 :: V) = some ([(key, v)], R) := by
  rw [appendString_append, parseMembers]
  simp [unquote_appendStringBody key _ hk, skipSpace_cons 58 V (by decide), hV, hp,
    skipSpace_cons 125 R (by decide)]

theorem encodeUser_eq (u : User) (rest : GoString) :
    encodeUser u ++ rest = 123 :: (appendString [78, 97, 109, 101] ++ 58 ::
      (appendString u.Name ++ 44 ::
        (appendString [65, 99, 99, 101, 115, 115, 75, 101, 121] ++ 58 ::
          (appendString u.AccessKey ++ 44 ::
            (appendString [83, 101, 99, 114, 101, 116, 75, 101, 121] ++ 58 ::
              (appendString u.SecretKey ++ 125 :: rest)))))) := by
  have h1 : appendString [78, 97, 109, 101] = [34, 78, 97, 109, 101, 34] := by decide
  have h2 : appendString [65, 99, 99, 101, 115, 115, 75, 101, 121] =
      [34, 65, 99, 99, 101, 115, 115, 75, 101, 121, 34] := by decide
  have h3 : appendString [83, 101, 99, 114, 101, 116, 75, 101, 121] =
      [34, 83, 101, 99, 114, 101, 116, 75, 101, 121, 34] := by decide
  rw [h1, h2, h3]
  simp [encodeUser]

theorem parseValue_encodeUser (fuel : Nat) (u : User) (rest : GoString)
    (hn : utf8Valid u.Name = true) (ha : utf8Valid u.AccessKey = true)
    (hs : utf8Valid u.SecretKey = true) :
    parseValue (fuel + 5) (encodeUser u ++ rest) = some (userJSON u, rest) := by
  rw [encodeUser_eq, parseValue]
  rw [skipSpace_appendString]
  rw [appendString_append]
  simp only [show (34 : Nat) ≠ 125 by decide, if_false, show (123 : Nat) = 123 from rfl,
    if_true]
  rw [← appendString_append]
  rw [parseMembers_comma (fuel + 3) _ _ _ (JSON.str u.Name) (by decide)
      (skipSpace_appendString _ _) (parseValue_string _ _ _ hn) (skipSpace_appendString _ _),
    parseMembers_comma (fuel + 2) _ _ _ (JSON.str u.AccessKey) (by decide)
      (skipSpace_appendString _ _) (parseValue_string _ _ _ ha) (skipSpace_appendString _ _),
    parseMembers_last (fuel + 1) _ _ _ (JSON.str u.SecretKey) (by decide)
      (skipSpace_appendString _ _) (parseValue_string _ _ _ hs)]
  rfl

theorem unmarshalUser_userJSON (u : User) : unmarshalUser (userJSON u) = some u := by
  have h1 : foldMatch [78, 97, 109, 101] [78, 97, 109, 101] = true := by decide
  have h2 : foldMatch [78, 97, 109, 101] [65, 99, 99, 101, 115, 115, 75, 101, 121] = false := by
    decide
  have h3 : foldMatch [65, 99, 99, 101, 115, 115, 75, 101, 121]
      [65, 99, 99, 101, 115, 115, 75, 101, 121] = true := by decide
  have h4 : foldMatch [78, 97, 109, 101] [83, 101, 99, 114, 101, 116, 75, 101, 121] = false := by
    decide
  have h5 : foldMatch [65, 99, 99, 101, 115, 115, 75, 101, 121]
      [83, 101, 99, 114, 101, 116, 75, 101, 121] = false := by decide
  have h6 : foldMatch [83, 101, 99, 114, 101, 116, 75, 101, 121]
      [83, 101, 99, 114, 101, 116, 75, 101, 121] = true := by decide
  simp [unmarshalUser, userJSON, unmarshalFields, storeString, h1, h2, h3, h4, h5, h6, User.zero]

theorem encodeMembers_cons_append (e : Entry) (es : List Entry) (rest : GoString) :
    encodeMembers (e :: es) ++ rest =
      appendString e.1 ++ 58 :: (encodeUser e.2 ++
        (match es with
          | [] => 125 :: rest
          | e1 :: es1 => 44 :: (encodeMembers (e1 :: es1) ++ rest))) := by
  cases es with
  | nil => simp [encodeMembers, encodeEntry]
  | cons e1 es1 => simp [encodeMembers, encodeEntry]

theorem skipSpace_encodeUser (u : User) (rest : GoString) :
    skipSpace (encodeUser u ++ rest) = encodeUser u ++ rest := by
  rw [encodeUser_eq]
  exact skipSpace_cons _ _ (by decide)

theorem skipSpace_encodeMembers (e : Entry) (es : List Entry) (rest : GoString) :
    skipSpace (encodeMembers (e :: es) ++ rest) = encodeMembers (e :: es) ++ rest := by
  rw [encodeMembers_cons_append]
  exact skipSpace_appendString _ _

theorem parseMembers_encodeMembers : ∀ (es : List Entry) (e : Entry) (fuel : Nat)
    (rest : GoString), (∀ x ∈ e :: es, ValidEntry x) → es.length + 6 ≤ fuel →
    parseMembers fuel (encodeMembers (e :: es) ++ rest) =
      some ((e :: es).map entryJSON, rest) := by
  intro es
  induction es with
  | nil =>
    intro e fuel rest hv hfuel
    obtain ⟨k, rfl⟩ : ∃ k, fuel = k + 6 := ⟨fuel - 6, by simp at hfuel; omega⟩
    obtain ⟨hk, hn, ha, hs⟩ := hv e (List.mem_cons_self _ _)
    rw [encodeMembers_cons_append]
    rw [parseMembers_last (k + 5) e.1 _ rest (userJSON e.2) hk (skipSpace_encodeUser _ _)
      (parseValue_encodeUser k e.2 _ hn ha hs)]
    rfl
  | cons e1 es1 ih =>
    intro e fuel rest hv hfuel
    obtain ⟨k, rfl⟩ : ∃ k, fuel = k + 6 := ⟨fuel - 6, by simp at hfuel; omega⟩
    obtain ⟨hk, hn, ha, hs⟩ := hv e (List.mem_cons_self _ _)
    rw [encodeMembers_cons_append]
    rw [parseMembers_comma (k + 5) e.1 _ (encodeMembers (e1 :: es1) ++ rest) (userJSON e.2) hk
      (skipSpace_encodeUser _ _) (parseValue_encodeUser k e.2 _ hn ha hs)
      (skipSpace_encodeMembers _ _ _)]
    rw [ih e1 (k + 5) rest (fun x hx => hv x (List.mem_cons_of_mem _ hx))
      (by simp at hfuel ⊢; omega)]
    rfl

theorem length_encodeMembers (es : List Entry) : es.length ≤ (encodeMembers es).length := by
  induction es with
  | nil => simp
  | cons e es ih =>
    have h := encodeMembers_cons_append e es []
    rw [List.append_nil] at h
    rw [h, appendString_append]
    cases es with
    | nil => simp
    | cons e1 es1 =>
      simp only [List.append_nil] at ih ⊢
      simp only [List.length_cons, List.length_append] at ih ⊢
      omega

theorem unmarshalMembers_entryJSON : ∀ (es : List Entry) (m : UserMap),
    unmarshalMembers (es.map entryJSON) m =
      some (es.foldl (fun acc e => acc.insert e.1 e.2) m) := by
  intro es
  induction es with
  | nil => intro m; rfl
  | cons e es ih =>
    intro m
    simp only [List.map_cons, entryJSON, unmarshalMembers, unmarshalUser_userJSON,
      List.foldl_cons]
    exact ih _

theorem lookup_foldl_insert : ∀ (es : List Entry) (m : UserMap) (k : GoString),
    es.NodupKeys →
    (es.foldl (fun acc e => acc.insert e.1 e.2) m).lookup k =
      (match es.dlookup k with
        | some v => some v
        | none => m.lookup k) := by
  intro es
  induction es with
  | nil => intro m k _; simp
  | cons e es ih =>
    intro m k hnd
    obtain ⟨hnot, hnd1⟩ := List.nodupKeys_cons.mp hnd
    rw [List.foldl_cons, ih _ k hnd1]
    by_cases hk : k = e.1
    · subst hk
      have : es.dlookup e.1 = none := List.dlookup_eq_none.mpr hnot
      rw [this, List.dlookup_cons_eq]
      simp
    · rw [List.dlookup_cons_ne _ _ hk, AList.lookup_insert_ne hk]

/-- Decoding what `Encode` wrote for a map of valid UTF-8 strings, whatever follows it,
succeeds with a map that answers every lookup as the encoded map does. -/
theorem Decode_Encode (m : GoMap) (tail : GoString) (hv : ∀ e ∈ m.entries, ValidEntry e) :
    ∃ m1, Decode (Encode m ++ tail) ∅ = Except.ok m1 ∧ ∀ k, m1.index k = m.index k := by
  cases m with
  | none =>
    refine ⟨none, ?_, fun k => rfl⟩
    simp [Encode, encodeMap, Decode, skipSpace, isSpace, parseValue, scanLiteral, isDigit,
      unmarshalMap]
  | some a =>
    have hperm := List.perm_insertionSort (fun x y : Entry => strLE x.1 y.1 = true) a.entries
    cases hs : a.entries.insertionSort (fun x y : Entry => strLE x.1 y.1 = true) with
    | nil =>
      have hnil : a.entries = [] := by
        rw [hs] at hperm
        exact List.perm_nil.mp hperm.symm
      refine ⟨some ∅, ?_, fun k => ?_⟩
      · simp [Encode, encodeMap, hs, encodeMembers, Decode, skipSpace, isSpace, parseValue,
          unmarshalMap, unmarshalMembers]
      · have : a.lookup k = none := by
          rw [AList.lookup_eq_none, AList.mem_keys, AList.keys, hnil]
          simp [List.keys]
        simp [GoMap.index, this]
    | cons e es =>
      have hvalid : ∀ x ∈ e :: es, ValidEntry x := by
        intro x hx
        rw [← hs] at hx
        exact hv x (hperm.subset hx)
      have hnd : (e :: es).NodupKeys := by
        rw [← hs]
        exact (List.perm_nodupKeys hperm).mpr a.nodupKeys
      have henc : Encode (some a) ++ tail =
          123 :: (encodeMembers (e :: es) ++ 10 :: tail) := by
        simp [Encode, encodeMap, hs]
      have hlen := length_encodeMembers (e :: es)
      have hfuel : es.length + 6 ≤
          2 * (encodeMembers (e :: es) ++ 10 :: tail).length + 3 := by
        simp only [List.length_append, List.length_cons] at hlen ⊢
        omega
      have hparse := parseMembers_encodeMembers es e _ (10 :: tail) hvalid hfuel
      have hskip := skipSpace_encodeMembers e es (10 :: tail)
      have hhead : ∃ Y, encodeMembers (e :: es) ++ 10 :: tail = 34 :: Y := by
        rw [encodeMembers_cons_append, appendString_append]
        exact ⟨_, rfl⟩
      obtain ⟨Y, hY⟩ := hhead
      refine ⟨some ((e :: es).foldl (fun acc e => acc.insert e.1 e.2) ∅), ?_, fun k => ?_⟩
      · rw [henc, Decode, skipSpace_cons 123 _ (by decide)]
        simp only
        rw [parseValue, hskip]
        rw [hY] at hparse ⊢
        simp only [show (34 : Nat) ≠ 125 by decide, if_false, if_true]
        rw [hparse]
        simp only [Option.map_some', unmarshalMap, unmarshalMembers_entryJSON (e :: es) ∅]
      · have h1 := lookup_foldl_insert (e :: es) ∅ k hnd
        have h2 : (e :: es).dlookup k = a.entries.dlookup k := by
          rw [← hs]
          exact List.perm_dlookup k ((List.perm_nodupKeys hperm).mpr a.nodupKeys)
            a.nodupKeys hperm
        have h3 : a.lookup k = a.entries.dlookup k := rfl
        simp only [GoMap.index]
        rw [h1, h2, h3]
        cases a.entries.dlookup k <;> simp

/-! Round trip through the file -/

theorem AddUser_fields (c : Config) (u : User) :
    (AddUser c u).configPath = c.configPath ∧ (AddUser c u).configFile = c.configFile ∧
      (AddUser c u).configLock = c.configLock := by
  unfold AddUser
  simp only
  split <;> simp

theorem foldl_AddUser_fields (us : List User) : ∀ (c : Config),
    (us.foldl AddUser c).configFile = c.configFile ∧
      (us.foldl AddUser c).configLock = c.configLock := by
  induction us with
  | nil => intro c; exact ⟨rfl, rfl⟩
  | cons u us ih =>
    intro c
    obtain ⟨h1, h2⟩ := ih (AddUser c u)
    obtain ⟨_, h3, h4⟩ := AddUser_fields c u
    exact ⟨h1.trans h3, h2.trans h4⟩

theorem GetKey_foldl_AddUser_ne (us : List User) : ∀ (c : Config) (k : GoString),
    (∀ x ∈ us, x.AccessKey ≠ k) → GetKey (us.foldl AddUser c) k = GetKey c k := by
  induction us with
  | nil => intro c k _; rfl
  | cons u us ih =>
    intro c k h
    rw [List.foldl_cons, ih (AddUser c u) k (fun x hx => h x (List.mem_cons_of_mem _ hx))]
    exact GetKey_AddUser_ne c u k (fun heq => h u (List.mem_cons_self _ _) heq.symm)

theorem GetKey_foldl_AddUser (us : List User) : ∀ (c : Config),
    us.Pairwise (fun a b => a.AccessKey ≠ b.AccessKey) →
    ∀ u ∈ us, GetKey (us.foldl AddUser c) u.AccessKey = u := by
  induction us with
  | nil => intro c _ u hu; simp at hu
  | cons a us ih =>
    intro c hp u hu
    obtain ⟨ha, hp1⟩ := List.pairwise_cons.mp hp
    rw [List.foldl_cons]
    rcases List.mem_cons.mp hu with rfl | hu1
    · rw [GetKey_foldl_AddUser_ne us (AddUser c u) u.AccessKey
        (fun x hx heq => ha x hx heq.symm)]
      exact GetKey_AddUser_self c u
    · exact ih (AddUser c a) hp1 u hu1

theorem entries_foldl_AddUser (us : List User) : ∀ (c : Config),
    ∀ e ∈ (us.foldl AddUser c).Users.entries,
      e ∈ c.Users.entries ∨ ∃ u ∈ us, e = ⟨u.AccessKey, u⟩ := by
  induction us with
  | nil => intro c e he; exact Or.inl he
  | cons a us ih =>
    intro c e he
    rw [List.foldl_cons] at he
    rcases ih (AddUser c a) e he with h | ⟨u, hu, rfl⟩
    · rw [AddUser_entries] at h
      rcases List.mem_cons.mp h with rfl | h1
      · exact Or.inr ⟨a, List.mem_cons_self _ _, rfl⟩
      · exact Or.inl ((List.kerase_sublist _ _).subset h1)
    · exact Or.inr ⟨u, List.mem_cons_of_mem _ hu, rfl⟩

theorem Stat_error (fs : FS) (path : GoString) (err : GoError)
    (h : Stat fs path = Except.error err) : err = GoError.notExist := by
  unfold Stat at h
  split at h
  · simp at h
  · split at h
    · simp at h
    · simp only [Except.error.injEq] at h
      exact h.symm

/-- What a successful `SetupConfig` leaves: the paths and the lock are set, the users are
untouched, the config directory is a directory and the config file exists. -/
theorem SetupConfig_ok (c c1 : Config) (fs fs1 : FS)
    (h : SetupConfig c fs = (none, c1, fs1)) :
    c1 = ⟨Join [fs.home, dotMinio], Join [Join [fs.home, dotMinio], configJson], some {},
        c.Users⟩ ∧
      fs1.home = fs.home ∧
      Stat fs1 (Join [fs.home, dotMinio]) = Except.ok Node.dir ∧
      ∃ n, Stat fs1 (Join [Join [fs.home, dotMinio], configJson]) = Except.ok n := by
  unfold SetupConfig at h
  simp only at h
  split at h
  · simp at h
  · next fsA hmk =>
    obtain ⟨hdir, hhome⟩ := MkdirAllAux_ok _ _ _ _ hmk
    split at h
    · next err hst =>
      have herr := Stat_error _ _ _ hst
      subst herr
      simp only [IsNotExist, beq_self_eq_true, if_true] at h
      split at h
      · simp at h
      · next fs2 hcr =>
        simp only [Prod.mk.injEq, true_and] at h
        obtain ⟨hc, hf⟩ := h
        subst hc hf
        have hfs2 := Create_ok _ _ _ hcr
        have hne : Join [fs.home, dotMinio] ≠
            Join [Join [fs.home, dotMinio], configJson] := by
          intro heq
          rw [← heq, hdir] at hst
          simp at hst
        refine ⟨rfl, ?_, ?_, ?_⟩
        · rw [hfs2]; exact hhome
        · rw [hfs2, Stat_insert_ne _ _ _ _ hne]; exact hdir
        · rw [hfs2]; exact Stat_insert_self fsA _ _
    · next n hst =>
      simp only [Prod.mk.injEq, true_and] at h
      obtain ⟨hc, hf⟩ := h
      subst hc hf
      exact ⟨rfl, hhome, hdir, n, hst⟩

theorem SetupConfig_of_exists (c : Config) (fs : FS) (n : Node)
    (hdir : Stat fs (Join [fs.home, dotMinio]) = Except.ok Node.dir)
    (hfile : Stat fs (Join [Join [fs.home, dotMinio], configJson]) = Except.ok n) :
    SetupConfig c fs = (none, ⟨Join [fs.home, dotMinio],
      Join [Join [fs.home, dotMinio], configJson], some {}, c.Users⟩, fs) := by
  unfold SetupConfig
  simp only [MkdirAll_of_dir _ _ hdir, hfile]

/-- C1, amended: for users with pairwise distinct access keys whose three fields are valid
UTF-8, when a fresh store is set up, each user is added and `WriteConfig` returns no error,
then on a fresh store `SetupConfig` and `ReadConfig` return no error, leave the file
system as it is, and `GetKey` of the access key of each user returns exactly that user. -/
theorem roundtrip_through_file (fs fs1 fs2 : FS) (c1 : Config) (us : List User)
    (hvalid : ∀ u ∈ us, utf8Valid u.Name = true ∧ utf8Valid u.AccessKey = true ∧
      utf8Valid u.SecretKey = true)
    (hdistinct : us.Pairwise (fun a b => a.AccessKey ≠ b.AccessKey))
    (hsetup : SetupConfig Config.zero fs = (none, c1, fs1))
    (hwrite : WriteConfig (us.foldl AddUser c1) fs1 = Except.ok (none, fs2)) :
    ∃ c3 c4, SetupConfig Config.zero fs2 = (none, c3, fs2) ∧
      ReadConfig c3 fs2 = Except.ok (none, c4) ∧
      ∀ u ∈ us, GetKey c4 u.AccessKey = u := by
  obtain ⟨hc1, hhome, hdir, n, hstat⟩ := SetupConfig_ok _ _ _ _ hsetup
  obtain ⟨hcf, hcl⟩ := foldl_AddUser_fields us c1
  have hfile1 : c1.configFile = Join [Join [fs.home, dotMinio], configJson] := by rw [hc1]
  have hlock1 : c1.configLock = some {} := by rw [hc1]
  have husers1 : c1.Users = none := by rw [hc1]; rfl
  rw [hfile1] at hcf
  rw [hlock1] at hcl
  -- the config file is a regular file, since it could be opened for writing
  obtain ⟨content, hcontent⟩ : ∃ content,
      Stat fs1 (Join [Join [fs.home, dotMinio], configJson]) =
        Except.ok (Node.file content) := by
    cases n with
    | file content => exact ⟨content, hstat⟩
    | dir =>
      simp [WriteConfig, hcl, hcf, OpenFile, hstat] at hwrite
  have hw := WriteConfig_content (us.foldl AddUser c1) fs1 content {} hcl
    (by rw [hcf]; exact hcontent)
  rw [hcf] at hw
  obtain ⟨hw1, hw2⟩ := hw
  rw [hw1] at hwrite
  simp only [Except.ok.injEq, Prod.mk.injEq, true_and] at hwrite
  have hne : Join [fs.home, dotMinio] ≠ Join [Join [fs.home, dotMinio], configJson] := by
    intro heq
    rw [← heq, hdir] at hcontent
    simp at hcontent
  have hhome2 : fs2.home = fs.home := by rw [← hwrite]; exact hhome
  have hdir2 : Stat fs2 (Join [fs2.home, dotMinio]) = Except.ok Node.dir := by
    rw [hhome2, ← hwrite]
    have := Stat_insert_ne fs1 (Join [Join [fs.home, dotMinio], configJson])
      (Join [fs.home, dotMinio])
      (Node.file (Encode (us.foldl AddUser c1).Users ++
        content.drop (Encode (us.foldl AddUser c1).Users).length)) hne
    rw [← hdir]
    exact this
  have hfile2 : Stat fs2 (Join [Join [fs2.home, dotMinio], configJson]) =
      Except.ok (Node.file (Encode (us.foldl AddUser c1).Users ++
        content.drop (Encode (us.foldl AddUser c1).Users).length)) := by
    rw [hhome2, ← hwrite]
    exact hw2
  have hsetup2 := SetupConfig_of_exists Config.zero fs2 _ hdir2 hfile2
  have hventries : ∀ e ∈ (us.foldl AddUser c1).Users.entries, ValidEntry e := by
    intro e he
    rcases entries_foldl_AddUser us c1 e he with h | ⟨u, hu, rfl⟩
    · rw [husers1] at h
      simp [GoMap.entries] at h
    · obtain ⟨hn, ha, hs⟩ := hvalid u hu
      exact ⟨ha, hn, ha, hs⟩
  obtain ⟨m1, hdec, hidx⟩ := Decode_Encode (us.foldl AddUser c1).Users
    (content.drop (Encode (us.foldl AddUser c1).Users).length) hventries
  refine ⟨_, ⟨Join [fs2.home, dotMinio], Join [Join [fs2.home, dotMinio], configJson],
    some {}, m1⟩, hsetup2, ?_, ?_⟩
  · simp [ReadConfig, OpenFile_of_file _ _ _ _ hfile2, File.ReadAll, hdec, Config.zero]
  · intro u hu
    have hget := GetKey_foldl_AddUser us c1 hdistinct u hu
    have heq : GetKey ⟨Join [fs2.home, dotMinio],
        Join [Join [fs2.home, dotMinio], configJson], some {}, m1⟩ u.AccessKey =
        GetKey (us.foldl AddUser c1) u.AccessKey := by
      simp only [GetKey, hidx]
    rw [heq, hget]

/-- Witness of C1, amended: user `bob` saved from a store set up on a fresh home directory
and read back by a fresh store. -/
theorem roundtrip_through_file_witness :
    SetupConfig Config.zero fsFresh = (none, cSet, fsSet) ∧
      WriteConfig ([uBob].foldl AddUser cSet) fsSet =
        Except.ok (none, fsSaved (AddUser cSet uBob).Users) ∧
      ∃ c3 c4, SetupConfig Config.zero (fsSaved (AddUser cSet uBob).Users) =
          (none, c3, fsSaved (AddUser cSet uBob).Users) ∧
        ReadConfig c3 (fsSaved (AddUser cSet uBob).Users) = Except.ok (none, c4) ∧
        ∀ u ∈ [uBob], GetKey c4 u.AccessKey = u :=
  ⟨rfl, rfl,
    roundtrip_through_file fsFresh fsSet (fsSaved (AddUser cSet uBob).Users) cSet [uBob]
      (by decide) (List.pairwise_singleton _ _) rfl rfl⟩

/-- C1 as stated fails: a user whose name is the byte `0xFF` is saved and read back with
the three bytes of U+FFFD as its name. -/
theorem roundtrip_invalid_utf8 :
    SetupConfig Config.zero fsFresh = (none, cSet, fsSet) ∧
      WriteConfig (AddUser cSet uBad) fsSet =
        Except.ok (none, fsSaved (AddUser cSet uBad).Users) ∧
      SetupConfig Config.zero (fsSaved (AddUser cSet uBad).Users) =
        (none, cSet, fsSaved (AddUser cSet uBad).Users) ∧
      (∃ c4, ReadConfig cSet (fsSaved (AddUser cSet uBad).Users) = Except.ok (none, c4) ∧
        GetKey c4 uBad.AccessKey = ⟨[0xEF, 0xBF, 0xBD], [65], [83]⟩ ∧
        GetKey c4 uBad.AccessKey ≠ uBad) :=
  ⟨rfl, rfl, rfl, _, rfl, rfl, by decide⟩

end Minio
